import Mathlib

/-!
Verification development for the skellybobs template generator
(`src/skellybobs_lib/generator.py`).

The Python code is shallowly embedded: strings are Lean `String`s (viewed
as their `List Char` data), Python dict-shaped template blocks become a
`Block` record of optional dynamic values, contexts are ordered
association lists (Python dicts preserve insertion order), and the
filesystem effect of materialization is an explicit `FS` state threaded
through the recursion.  Recursion over the block tree uses an explicit
fuel parameter so every definition is a computable structural recursion
(the Python functions terminate because the template tree is finite; fuel
merely bounds the recursion depth and every theorem quantifies over it or
fixes a sufficient concrete value).

Python's `str.lower` / `str.upper` / `str.isalpha` are modelled on the
ASCII range, which is the domain exercised by the generator's templates
and by every claim considered here.
-/

namespace Skelly

/-! ## ASCII case helpers (model of Python `str.lower` / `str.upper` etc.) -/

/-- ASCII model of Python `str.lower` on a single character. -/
def pyLowerChar (c : Char) : Char :=
  if 'A' ≤ c ∧ c ≤ 'Z' then Char.ofNat (c.toNat + 32) else c

/-- ASCII model of Python `str.upper` on a single character. -/
def pyUpperChar (c : Char) : Char :=
  if 'a' ≤ c ∧ c ≤ 'z' then Char.ofNat (c.toNat - 32) else c

/-- ASCII model of Python `str.lower`. -/
def pyLowerStr (s : String) : String := String.mk (s.data.map pyLowerChar)

/-- ASCII model of Python `str.upper`. -/
def pyUpperStr (s : String) : String := String.mk (s.data.map pyUpperChar)

/-- ASCII model of Python `ch.isalpha()`. -/
def pyIsAlpha (c : Char) : Bool := ('a' ≤ c ∧ c ≤ 'z') ∨ ('A' ≤ c ∧ c ≤ 'Z')

/-- ASCII model of Python `ch.isupper()`. -/
def pyIsUpper (c : Char) : Bool := 'A' ≤ c ∧ c ≤ 'Z'

/-- Model of Python's regex `\s` whitespace class (ASCII part). -/
def pyIsSpace (c : Char) : Bool :=
  c = ' ' ∨ c = '\t' ∨ c = '\n' ∨ c = '\r' ∨ c = '\x0b' ∨ c = '\x0c'

/-! ## Placeholder tokens

`PLACEHOLDER_PATTERN = re.compile(r"\$\{([a-zA-Z0-9_\-\.]+)\}")`.
A match is `${`, a nonempty maximal run of class characters, then `}`;
`re.sub`/`finditer` scan left to right without overlap, restarting one
character later after a failed `${`. -/

/-- A character of the placeholder-key class `[a-zA-Z0-9_\-\.]`. -/
def isPhChar (c : Char) : Bool :=
  pyIsAlpha c ∨ ('0' ≤ c ∧ c ≤ '9') ∨ c = '_' ∨ c = '-' ∨ c = '.'

/-- All placeholder keys (raw, as written) found by scanning a character
list exactly as `PLACEHOLDER_PATTERN.finditer` does: at `${` followed by
a nonempty run of key-class characters and `}`, a match; otherwise the
scan restarts one character later.  The fuel is the length of the
scanned list: every step consumes at least one character, so
`phTokens l.length l` scans the whole list. -/
def phTokens : Nat → List Char → List String
  | 0, _ => []
  | _ + 1, [] => []
  | fuel + 1, c :: rest =>
    if c = '$' ∧ rest.head? = some '{' then
      if rest.tail.takeWhile isPhChar ≠ [] ∧
          (rest.tail.dropWhile isPhChar).head? = some '}' then
        String.mk (rest.tail.takeWhile isPhChar) ::
          phTokens fuel (rest.tail.dropWhile isPhChar).tail
      else phTokens fuel rest
    else phTokens fuel rest

/-- `_find_placeholders_in_string`: canonical (lowercased) placeholder
keys of a string.  The Python function returns `list({...})`, a set with
unspecified iteration order; only membership is ever observed, and this
list has the same members. -/
def findPlaceholdersInString (s : String) : List String :=
  (phTokens s.data.length s.data).map pyLowerStr

/-! ## Context -/

/-- A context value: a single string or the ordered list of values bound
by repeated `-p key=value` occurrences. -/
inductive CtxVal where
  | s (v : String)
  | l (vs : List String)
  deriving DecidableEq, Repr

/-- A context: insertion-ordered key/value pairs (Python `dict`). -/
abbrev Context := List (String × CtxVal)

/-- Python `context.get(k)`: first binding of exactly `k`. -/
def ctxGet (ctx : Context) (k : String) : Option CtxVal :=
  (ctx.find? (fun e => e.1 == k)).map (·.2)

/-- A context value as the renderer consumes it: a scalar is itself, a
list contributes its first element (empty list: the empty string). -/
def ctxValFirst : CtxVal → String
  | .s w => w
  | .l ws => ws.headD ""

/-! ## `_render_string` -/

/-- Case style inferred from a placeholder token as written
(`classify_key` in `_render_string`). -/
inductive Style where
  | upper
  | title
  | lower
  deriving DecidableEq, Repr

/-- `classify_key`'s style component: `upper` when `k.upper() == k` and
`k` has an alphabetic character; `title` when the first alphabetic
character is uppercase and all later alphabetic characters are lowercase;
otherwise `lower`. -/
def classifyStyle (k : String) : Style :=
  if pyUpperStr k = k ∧ k.data.any pyIsAlpha then .upper
  else
    match k.data.dropWhile (fun c => ¬ pyIsAlpha c) with
    | [] => .lower
    | first :: restChars =>
      let restAlpha := restChars.filter pyIsAlpha
      if pyIsUpper first ∧ restAlpha.map pyLowerChar = restAlpha then .title
      else .lower

/-- `apply_style`: `upper` uppercases the whole value, `title` uppercases
only its first character, `lower` leaves it unchanged. -/
def applyStyle (val : String) (style : Style) : String :=
  match style with
  | .upper => pyUpperStr val
  | .title =>
    match val.data with
    | [] => val
    | c :: rest => String.mk (pyUpperChar c :: rest)
  | .lower => val

/-- The lookup chain of `repl` in `_render_string`: exact key, then the
lowercased canonical key, then a case-insensitive scan of context keys. -/
def lookupCtx (ctx : Context) (rawKey canonicalKey : String) : Option CtxVal :=
  match ctxGet ctx rawKey with
  | some v => some v
  | none =>
    match ctxGet ctx canonicalKey with
    | some v => some v
    | none => (ctx.find? (fun e => pyLowerStr e.1 == canonicalKey)).map (·.2)

/-- The replacement `repl` produces for a matched raw key, or `none` when
the key is unresolved (the literal `${key}` text is then kept). -/
def replValue (ctx : Context) (rawKey : String) : Option String :=
  match lookupCtx ctx rawKey (pyLowerStr rawKey) with
  | none => none
  | some (.s v) => some (applyStyle v (classifyStyle rawKey))
  | some (.l vs) => some (applyStyle (vs.headD "") (classifyStyle rawKey))

/-- The scanning loop of `PLACEHOLDER_PATTERN.sub(repl, template)`,
branching exactly as `phTokens`: at a match the replacement (or, for an
unresolved key, the literal token text) is emitted and scanning resumes
after the `}`; otherwise the character is copied. -/
def renderGo (ctx : Context) : Nat → List Char → List Char
  | 0, _ => []
  | _ + 1, [] => []
  | fuel + 1, c :: rest =>
    if c = '$' ∧ rest.head? = some '{' then
      if rest.tail.takeWhile isPhChar ≠ [] ∧
          (rest.tail.dropWhile isPhChar).head? = some '}' then
        (match replValue ctx (String.mk (rest.tail.takeWhile isPhChar)) with
         | some v => v.data
         | none => '$' :: '{' :: rest.tail.takeWhile isPhChar ++ ['}']) ++
          renderGo ctx fuel (rest.tail.dropWhile isPhChar).tail
      else c :: renderGo ctx fuel rest
    else c :: renderGo ctx fuel rest

/-- `_render_string(template, context)`. -/
def renderString (template : String) (ctx : Context) : String :=
  String.mk (renderGo ctx template.data.length template.data)

/-! ## The template data model

A template block is a Python dict; the generator only ever reads the keys
`type`, `name`, `content` and `cond`, each of which may hold a string, a
boolean, an integer, a list, or a nested dict.  A key that is absent is
`none` (YAML `null` values, which Python would distinguish from absent
keys, are identified with absent keys here; no claim involves them). -/

mutual
inductive Val where
  | vstr (s : String)
  | vbool (b : Bool)
  | vint (n : Int)
  | vlist (xs : List Val)
  | vdict (b : Block)

inductive Block where
  | mk (type : Option Val) (name : Option Val) (content : Option Val) (cond : Option Val)
end

/-- `block.get("type")`. -/
def Block.type : Block → Option Val
  | .mk t _ _ _ => t

/-- `block.get("name")`. -/
def Block.name : Block → Option Val
  | .mk _ n _ _ => n

/-- `block.get("content")`. -/
def Block.content : Block → Option Val
  | .mk _ _ c _ => c

/-- `block.get("cond")`. -/
def Block.cond : Block → Option Val
  | .mk _ _ _ c => c

/-- The `type` field as a string, when it is one.  Python's comparisons
`block.get("type") == "file"` / `== "directory"` are true exactly when
the field holds that string, i.e. when `typeStr` is `some` of it. -/
def Block.typeStr (b : Block) : Option String :=
  match b.type with
  | some (.vstr s) => some s
  | _ => none

/- Size of a dynamic value, used as a recursion-depth bound (fuel) for
the functions that walk a block tree; it strictly dominates the nesting
depth. -/
mutual
def valSize : Val → Nat
  | .vstr _ => 1
  | .vbool _ => 1
  | .vint _ => 1
  | .vlist xs => 1 + valListSize xs
  | .vdict b => 1 + blockSize b

def valListSize : List Val → Nat
  | [] => 0
  | v :: rest => valSize v + valListSize rest

def blockSize : Block → Nat
  | .mk t n c d => 1 + optValSize t + optValSize n + optValSize c + optValSize d

def optValSize : Option Val → Nat
  | none => 0
  | some v => valSize v
end

/-! ## Python `str()` of a dynamic value

The generator calls `str(raw_name)` on the `name` field before rendering
it.  `pyStr` is exact on strings, booleans and integers.  On lists and
dicts it reproduces Python's `str` structurally (`repr` of the elements,
comma-joined); `repr` of a string is modelled as wrapping it in single
quotes, which is exact for strings free of quotes, backslashes and
control characters — the only ones that occur in this development.  The
fuel is `sizeOf` of the value, which bounds the nesting depth. -/

mutual
def pyStrGo : Nat → Val → String
  | _, .vstr s => s
  | _, .vbool true => "True"
  | _, .vbool false => "False"
  | _, .vint n => toString n
  | 0, _ => ""
  | fuel + 1, .vlist xs => "[" ++ String.intercalate ", " (xs.map (pyReprGo fuel)) ++ "]"
  | fuel + 1, .vdict b => pyReprBlock fuel b

def pyReprGo : Nat → Val → String
  | _, .vstr s => "'" ++ s ++ "'"
  | _, .vbool true => "True"
  | _, .vbool false => "False"
  | _, .vint n => toString n
  | 0, _ => ""
  | fuel + 1, .vlist xs => "[" ++ String.intercalate ", " (xs.map (pyReprGo fuel)) ++ "]"
  | fuel + 1, .vdict b => pyReprBlock fuel b

def pyReprBlock (fuel : Nat) (b : Block) : String :=
  let field (key : String) (v : Option Val) : List String :=
    match v with
    | some v => ["'" ++ key ++ "': " ++ pyReprGo fuel v]
    | none => []
  "\x7b" ++ String.intercalate ", "
    (field "type" b.type ++ field "name" b.name ++
     field "content" b.content ++ field "cond" b.cond) ++ "\x7d"
end

/-- `str(block.get("name", ""))`, the string the materializer renders as
a block's name. -/
def blockNameStr (b : Block) : String :=
  let v := b.name.getD (.vstr "")
  pyStrGo (valSize v) v

/-! ## `_is_condition_met` and `COND_PATTERN`

`COND_PATTERN = r"^\s*(\$\{[^}]+\})\s*(==|!=)\s*([\'\"])\s*(.*?)\s*\3\s*$"`.
The placeholder group is `${`, one or more non-`}` characters, `}`.  For
the literal group: since the closing quote `\3` is followed by `\s*$`,
the quote matched by `\3` is the unique occurrence of the quote character
whose suffix is all whitespace (any earlier candidate would have a later
quote in its suffix); the greedy `\s*` on both sides of the lazy `(.*?)`
strip maximal whitespace from both ends of the enclosed text, and `.`
does not match a newline, so a literal containing one fails the match. -/

/-- Match `\s*(.*?)\s*q\s*$` against the characters after the opening
quote `q`, returning the literal group. -/
def parseCondLit (q : Char) (rest : List Char) : Option String :=
  match rest.reverse.dropWhile pyIsSpace with
  | [] => none
  | q' :: revBody =>
    if q' = q then
      let body := revBody.reverse
      let lit := ((body.dropWhile pyIsSpace).reverse.dropWhile pyIsSpace).reverse
      if lit.contains '\n' then none else some (String.mk lit)
    else none

/-- Match `\s*(['\"])\s*(.*?)\s*\3\s*$` after the operator. -/
def parseCondOp (tok : String) (isEq : Bool) (r : List Char) :
    Option (String × Bool × String) :=
  match r.dropWhile pyIsSpace with
  | q :: rest =>
    if q = '\'' ∨ q = '"' then
      (parseCondLit q rest).map (fun lit => (tok, isEq, lit))
    else none
  | [] => none

/-- `COND_PATTERN.match(cond)`: the placeholder expression (group 1, with
its `${}` wrapper), whether the operator is `==`, and the literal. -/
def parseCond (s : String) : Option (String × Bool × String) :=
  match s.data.dropWhile pyIsSpace with
  | '$' :: '{' :: rest =>
    match rest.takeWhile (fun c => c ≠ '}'), rest.dropWhile (fun c => c ≠ '}') with
    | [], _ => none
    | key, '}' :: rest2 =>
      let tok := String.mk ('$' :: '{' :: (key ++ ['}']))
      match rest2.dropWhile pyIsSpace with
      | '=' :: '=' :: r4 => parseCondOp tok isEq₀ r4
      | '!' :: '=' :: r4 => parseCondOp tok (!isEq₀) r4
      | _ => none
    | _, _ => none
  | _ => none
where
  isEq₀ : Bool := true

/-- `_is_condition_met(block, context)`: absent condition is true; a
boolean condition is itself; a non-string, non-boolean condition is true;
a string condition is matched against `COND_PATTERN` (no match means
false), the placeholder expression rendered and compared to the literal. -/
def isConditionMet (b : Block) (ctx : Context) : Bool :=
  match b.cond with
  | none => true
  | some (.vbool bv) => bv
  | some (.vstr s) =>
    match parseCond s with
    | none => false
    | some (tok, isEq, lit) =>
      let left := renderString tok ctx
      if isEq then left == lit else left != lit
  | some _ => true

/-! ## `_find_placeholders_in_block` and `_expand_contexts_for_block` -/

/-- `_find_placeholders_in_block(block)`: canonical placeholder keys
referenced by a block's own `name` and `cond` strings, its `content`
string when its type is `"file"`, and recursively its children when its
type is `"directory"`.  Non-dict arguments yield nothing.  The Python
function returns the members of a set; this list has the same members.
The fuel bounds the recursion depth; callers pass `sizeOf`, which
dominates the tree depth. -/
def findPlaceholdersInBlock : Nat → Val → List String
  | 0, _ => []
  | fuel + 1, .vdict b =>
    (match b.name with | some (.vstr s) => findPlaceholdersInString s | _ => []) ++
    (match b.cond with | some (.vstr s) => findPlaceholdersInString s | _ => []) ++
    (if b.typeStr == some "file" then
      match b.content with | some (.vstr s) => findPlaceholdersInString s | _ => []
     else []) ++
    (if b.typeStr == some "directory" then
      match b.content with
      | some (.vlist cs) => (cs.map (findPlaceholdersInBlock fuel)).flatten
      | _ => []
     else [])
  | _ + 1, _ => []

/-- The referenced-key set used by `_expand_contexts_for_block`. -/
def usedKeys (b : Block) : List String :=
  findPlaceholdersInBlock (valSize (Val.vdict b)) (.vdict b)

/-- A context entry that triggers expansion: its key is referenced in the
subtree and it is bound to a list of more than one value. -/
def isMultiEntry (used : List String) (e : String × CtxVal) : Bool :=
  used.contains e.1 &&
    (match e.2 with | .l vs => decide (vs.length > 1) | _ => false)

/-- `v[0] if isinstance(v, list) and len(v) == 1 else v`. -/
def collapseVal : CtxVal → CtxVal
  | .l [x] => .s x
  | v => v

/-- `itertools.product` over lists of strings (rightmost factor varies
fastest). -/
def listProduct : List (List String) → List (List String)
  | [] => [[]]
  | vs :: rest => vs.flatMap (fun v => (listProduct rest).map (v :: ·))

/-- `_expand_contexts_for_block(block, base_context)`: partition the
context into multi-valued referenced entries and fixed entries
(single-element lists collapsing to their scalar), and produce one
concrete context per combination of the multi entries' values, appended
after the fixed entries in context order. -/
def expandContextsForBlock (b : Block) (base : Context) : List Context :=
  let used := usedKeys b
  let multiItems := base.filter (isMultiEntry used)
  let fixedItems :=
    (base.filter (fun e => ! isMultiEntry used e)).map (fun e => (e.1, collapseVal e.2))
  if multiItems.isEmpty then [fixedItems]
  else
    let keys := multiItems.map (·.1)
    let valuesLists :=
      multiItems.map (fun e => match e.2 with | .l vs => vs | .s v => [v])
    (listProduct valuesLists).map
      (fun combo => fixedItems ++ (keys.zip combo).map (fun kv => (kv.1, CtxVal.s kv.2)))

/-! ## Filesystem model

Paths are lists of `/`-separated segments; `os.path.join(base, name)`
with a relative, slash-separated `name` appends the segments of `name`
to those of `base` (every name materialized in this development is
relative).  The filesystem state records which directories have been
created and the contents of written files; `os.makedirs(..., exist_ok=
True)` creates each missing ancestor, and writing an existing file
overwrites it. -/

abbrev Path := List String

/-- `str.split("/")` (the segments the OS sees in a joined path). -/
def splitPathAux : List Char → List Char → List String
  | acc, [] => [String.mk acc.reverse]
  | acc, c :: rest =>
    if c = '/' then String.mk acc.reverse :: splitPathAux [] rest
    else splitPathAux (c :: acc) rest

/-- The `/`-separated segments of a rendered name. -/
def splitPath (s : String) : Path := splitPathAux [] s.data

structure FS where
  dirs : List Path
  files : List (Path × String)
  deriving DecidableEq, Repr

def FS.empty : FS := ⟨[], []⟩

/-- Create a single directory if missing (`os.mkdir` step of
`os.makedirs(..., exist_ok=True)`). -/
def FS.mkdir1 (fs : FS) (p : Path) : FS :=
  if p ∈ fs.dirs then fs else { fs with dirs := fs.dirs ++ [p] }

/-- The nonempty prefixes of a path, shallowest first. -/
def pathPrefixes (p : Path) : List Path :=
  (List.range p.length).map (fun i => p.take (i + 1))

/-- `os.makedirs(p, exist_ok=True)`: create every ancestor of `p`, then
`p`, shallowest first. -/
def FS.mkdirAll (fs : FS) (p : Path) : FS :=
  (pathPrefixes p).foldl FS.mkdir1 fs

/-- Write a file, fully overwriting any existing file at the path. -/
def FS.write (fs : FS) (p : Path) (data : String) : FS :=
  if fs.files.any (fun e => e.1 == p) then
    { fs with files := fs.files.map (fun e => if e.1 == p then (p, data) else e) }
  else { fs with files := fs.files ++ [(p, data)] }

/-- The `is_dir=False` case of `_create_path`: ensure the parent
directory (`os.path.dirname`) exists, skipping an empty dirname. -/
def FS.ensureParent (fs : FS) (p : Path) : FS :=
  let d := p.dropLast
  if d.isEmpty then fs else fs.mkdirAll d

/-! ## Tree materializer -/

/-- `_process_file(base_dir, block, context)`: check the condition,
render the name, ensure parent directories, render string content (empty
when absent or not a string), write the file. -/
def processFile (fs : FS) (base : Path) (b : Block) (ctx : Context) : FS :=
  if ! isConditionMet b ctx then fs
  else
    let name := renderString (blockNameStr b) ctx
    let path := base ++ splitPath name
    let fs := fs.ensureParent path
    let data :=
      match b.content with
      | none => ""
      | some (.vstr c) => renderString c ctx
      | some _ => ""
    fs.write path data

/- `_process_directory(base_dir, block, base_context)` and the loops it
contains.  `processDirectory` expands the contexts; `processDirCtxs` is
the `for ctx in ...` loop; `processDirOne` is that loop's body (condition
check, name rendering, directory creation, children); `processChildren`
is the `for child in content` loop with its type dispatch.  Every
function consumes one unit of fuel per call so that the whole mutual
definition is structural recursion on the fuel; any fuel at least the
total number of loop iterations and recursive calls reproduces the
Python execution, and each theorem quantifies over the fuel or fixes a
sufficient concrete value. -/
mutual
def processDirectory : Nat → FS → Path → Block → Context → FS
  | 0, fs, _, _, _ => fs
  | fuel + 1, fs, base, b, baseCtx =>
    processDirCtxs fuel fs base b (expandContextsForBlock b baseCtx)

def processDirCtxs : Nat → FS → Path → Block → List Context → FS
  | 0, fs, _, _, _ => fs
  | _ + 1, fs, _, _, [] => fs
  | fuel + 1, fs, base, b, ctx :: rest =>
    processDirCtxs fuel (processDirOne fuel fs base b ctx) base b rest

def processDirOne : Nat → FS → Path → Block → Context → FS
  | 0, fs, _, _, _ => fs
  | fuel + 1, fs, base, b, ctx =>
    if ! isConditionMet b ctx then fs
    else
      let name := renderString (blockNameStr b) ctx
      let dirPath := base ++ splitPath name
      let fs := fs.mkdirAll dirPath
      match b.content with
      | some (.vlist cs) => processChildren fuel fs dirPath cs ctx
      | _ => fs

def processChildren : Nat → FS → Path → List Val → Context → FS
  | 0, fs, _, _, _ => fs
  | _ + 1, fs, _, [], _ => fs
  | fuel + 1, fs, base, c :: rest, ctx =>
    processChildren fuel (processChild fuel fs base c ctx) base rest ctx

def processChild : Nat → FS → Path → Val → Context → FS
  | 0, fs, _, _, _ => fs
  | fuel + 1, fs, base, c, ctx =>
    match c with
    | .vdict child =>
      if ! isConditionMet child ctx then fs
      else if child.typeStr == some "directory" then
        processDirectory fuel fs base child ctx
      else if child.typeStr == some "file" then processFile fs base child ctx
      else if child.name.isSome then processFile fs base child ctx
      else fs
    | _ => fs
end

/-- The root-block loop of `generate_from_template`: directory blocks go
to `_process_directory`, file blocks to `_process_file`, anything else is
skipped. -/
def generateRoot (fuel : Nat) (fs : FS) (out : Path) (root : List Val) (ctx : Context) :
    FS :=
  match root with
  | [] => fs
  | v :: rest =>
    let fs :=
      match v with
      | .vdict b =>
        if b.typeStr == some "directory" then processDirectory fuel fs out b ctx
        else if b.typeStr == some "file" then processFile fs out b ctx
        else fs
      | _ => fs
    generateRoot fuel fs out rest ctx

/-- `generate_from_template` after the YAML template has been loaded and
validated (loading and the `root`-shape check are I/O outside this
model): ensure the output directory exists, then process each root
block against the full initial context. -/
def generateFromTemplate (fuel : Nat) (fs : FS) (out : Path) (root : List Val)
    (ctx : Context) : FS :=
  generateRoot fuel (fs.mkdirAll out) out root ctx

/-! ## Directory scanner

A real directory tree, as the `os.path` predicates see it.  `os.path.
isdir` and `os.path.isfile` follow symbolic links, so a symlink to a
directory (`linkDir`) satisfies `isdir` and a symlink to a regular file
(`linkFile`) satisfies `isfile`; `other` covers entries satisfying
neither (devices, sockets, fifos, broken links).  A file's payload is
`some text` when its bytes decode as UTF-8 (empty text means an empty
file, i.e. size 0) and `none` when they do not decode (necessarily size
> 0). -/

inductive FsNode where
  | file (data : Option String)
  | dir (entries : List (String × FsNode))
  | linkDir (entries : List (String × FsNode))
  | linkFile (data : Option String)
  | other

/-- `os.path.isdir` (follows symlinks). -/
def FsNode.isDir : FsNode → Bool
  | .dir _ => true
  | .linkDir _ => true
  | _ => false

/-- `os.path.isfile` (follows symlinks). -/
def FsNode.isFile : FsNode → Bool
  | .file _ => true
  | .linkFile _ => true
  | _ => false

/-- `os.listdir` of a directory-like node. -/
def FsNode.entriesOf : FsNode → List (String × FsNode)
  | .dir es => es
  | .linkDir es => es
  | _ => []

/-- The readable payload of a file-like node. -/
def FsNode.dataOf : FsNode → Option String
  | .file d => d
  | .linkFile d => d
  | _ => none

/-- Stable ascending insertion (for `sorted(os.listdir(...))`). -/
def insertByName (x : String × FsNode) : List (String × FsNode) → List (String × FsNode)
  | [] => [x]
  | y :: ys => if x.1 ≤ y.1 then x :: y :: ys else y :: insertByName x ys

/-- `sorted(...)` by entry name (stable, lexicographic). -/
def sortByName : List (String × FsNode) → List (String × FsNode)
  | [] => []
  | x :: xs => insertByName x (sortByName xs)

/-- The compaction `while` loop of `_scan_directory_to_blocks`: while the
current directory has exactly one directory child and no file or other
children, fold that child's name onto the path-like name and descend.
Fuel bounds the chain length (the directory depth). -/
def compactChain : Nat → String → List (String × FsNode) →
    String × List (String × FsNode)
  | 0, name, entries => (name, entries)
  | fuel + 1, name, entries =>
    let children := sortByName entries
    let dirChildren := children.filter (fun e => e.2.isDir)
    let fileChildren := children.filter (fun e => e.2.isFile)
    let otherChildren := children.filter (fun e => ! (e.2.isDir || e.2.isFile))
    match dirChildren with
    | [e] =>
      if fileChildren.isEmpty && otherChildren.isEmpty then
        compactChain fuel (name ++ "/" ++ e.1) e.2.entriesOf
      else (name, entries)
    | _ => (name, entries)

/- `_scan_directory_to_blocks(directory)`: scan the sorted entries; each
directory entry is compacted and scanned recursively into a Directory
block (its `content` omitted when it has no children); each file entry
becomes a File block whose `content` is its text when non-empty and
decodable, omitted otherwise; entries that are neither directory-like
nor file-like produce nothing. -/
mutual
def scanDir : Nat → List (String × FsNode) → List Block
  | 0, _ => []
  | fuel + 1, entries => (sortByName entries).filterMap (scanEntry fuel)

def scanEntry : Nat → String × FsNode → Option Block
  | 0, _ => none
  | fuel + 1, (entry, node) =>
    if node.isDir then
      let c := compactChain fuel entry node.entriesOf
      let childBlocks := scanDir fuel c.2
      some (Block.mk (some (.vstr "directory")) (some (.vstr c.1))
        (if childBlocks.isEmpty then none else some (.vlist (childBlocks.map .vdict)))
        none)
    else if node.isFile then
      some (Block.mk (some (.vstr "file")) (some (.vstr entry))
        (match node.dataOf with
         | some s => if s.isEmpty then none else some (.vstr s)
         | none => none)
        none)
    else none
end

/-! ## Notions the theorems quantify over -/

/-- Whether a string contains an ASCII uppercase letter. -/
def hasAsciiUpper (s : String) : Bool := s.data.any pyIsUpper

/-- Prefix-comparability of paths: one is a prefix of the other. -/
def pcomp (a d : Path) : Prop := a <+: d ∨ d <+: a

/-- How a materialization step rooted at `base` evolves the directory
set: directories are never removed, every directory it adds is
prefix-comparable with `base`, and it cannot introduce duplicates. -/
def DirsEvolve (fs fs' : FS) (base : Path) : Prop :=
  fs.dirs ⊆ fs'.dirs ∧
  (∀ d ∈ fs'.dirs, d ∈ fs.dirs ∨ pcomp base d) ∧
  (fs.dirs.Nodup → fs'.dirs.Nodup)

/-- Whether `d` is an immediate child directory of `base`. -/
def isChildDirOf (base d : Path) : Bool :=
  d.length == base.length + 1 && base.isPrefixOf d

/-- `c1` is `c2` with the binding `(k, v)` inserted at some position. -/
def InsCtx (k : String) (v : CtxVal) (c1 c2 : Context) : Prop :=
  ∃ pre post, c1 = pre ++ (k, v) :: post ∧ c2 = pre ++ post

/-- The subtree of block `b` references placeholder key `k` (up to the
lowercase canonicalization the renderer applies to tokens): some string
the materializer may render — the stringified `name`, the `cond` string
or its parsed placeholder expression, a string `content`, or recursively
the same in a dict child — contains a `${token}` whose lowercase form is
`k`'s.  This names the "subtree references an occurrence of the key"
notion of the expansion claims; it contains every key
`_find_placeholders_in_block` reports (that function ignores, e.g., the
content of a child with an unknown `type`, which the materializer
nevertheless renders through its empty-file fallback). -/
inductive MentionsKey (k : String) : Block → Prop where
  | name (b : Block) :
    pyLowerStr k ∈ findPlaceholdersInString (blockNameStr b) → MentionsKey k b
  | cond (b : Block) (s : String) :
    b.cond = some (.vstr s) → pyLowerStr k ∈ findPlaceholdersInString s →
    MentionsKey k b
  | condTok (b : Block) (s tok lit : String) (isEq : Bool) :
    b.cond = some (.vstr s) → parseCond s = some (tok, isEq, lit) →
    pyLowerStr k ∈ findPlaceholdersInString tok → MentionsKey k b
  | content (b : Block) (s : String) :
    b.content = some (.vstr s) → pyLowerStr k ∈ findPlaceholdersInString s →
    MentionsKey k b
  | child (b : Block) (cs : List Val) (cb : Block) :
    b.content = some (.vlist cs) → Val.vdict cb ∈ cs → MentionsKey k cb →
    MentionsKey k b

/-! ## Concrete template data for witnesses and counterexamples -/

/-- `-p adapter=http -p adapter=kafka`. -/
def adapterCtx : Context := [("adapter", .l ["http", "kafka"])]

/-- A file child whose name references `adapter`. -/
def adapterFileChild : Block :=
  .mk (some (.vstr "file")) (some (.vstr "x-${adapter}")) none none

/-- A directory whose own name is fixed but whose child references
`adapter`. -/
def fixedNameDir : Block :=
  .mk (some (.vstr "directory")) (some (.vstr "app"))
    (some (.vlist [.vdict adapterFileChild])) none

/-- A `README.md` child whose content references `adapter`. -/
def readmeChild : Block :=
  .mk (some (.vstr "file")) (some (.vstr "README.md"))
    (some (.vstr "A: ${adapter}")) none

/-- A directory named `${adapter}` containing `readmeChild`. -/
def adapterNameDir : Block :=
  .mk (some (.vstr "directory")) (some (.vstr "${adapter}"))
    (some (.vlist [.vdict readmeChild])) none

/-- A root file block whose name references `adapter`. -/
def rootFileBlock : Block :=
  .mk (some (.vstr "file")) (some (.vstr "f-${adapter}")) none none

/-- A file block guarded by `${adapter} == 'http'`. -/
def condEqBlock : Block :=
  .mk (some (.vstr "file")) (some (.vstr "h.txt")) none
    (some (.vstr "${adapter} == 'http'"))

/-- A file block guarded by `${adapter} != 'http'`. -/
def condNeBlock : Block :=
  .mk (some (.vstr "file")) (some (.vstr "k.txt")) none
    (some (.vstr "${adapter} != 'http'"))

/-- A childless directory block with a fixed name. -/
def plainDirBlock : Block :=
  .mk (some (.vstr "directory")) (some (.vstr "app")) none none

/-- The directory chain `a/b/c/` with no other entries. -/
def chainTree : List (String × FsNode) :=
  [("a", .dir [("b", .dir [("c", .dir [])])])]

/-- The compacted block the scanner produces for `chainTree`. -/
def chainBlock : Block :=
  .mk (some (.vstr "directory")) (some (.vstr "a/b/c")) none none

/-- A child with an unknown `type` but a `name` and string `content`. -/
def weirdChild : Block :=
  .mk (some (.vstr "widget")) (some (.vstr "notes.txt")) (some (.vstr "hello")) none

/-- A directory containing `weirdChild`. -/
def weirdDir : Block :=
  .mk (some (.vstr "directory")) (some (.vstr "d"))
    (some (.vlist [.vdict weirdChild])) none

/-- A directory named `${Adapter}` (uppercase key spelling). -/
def upperNameDir : Block :=
  .mk (some (.vstr "directory")) (some (.vstr "${Adapter}")) none none

/-- `-p Adapter=http -p Adapter=kafka`. -/
def upperAdapterCtx : Context := [("Adapter", .l ["http", "kafka"])]

/-- A block whose `cond` is the YAML integer `7`. -/
def intCondBlock : Block :=
  .mk (some (.vstr "file")) (some (.vstr "i.txt")) none (some (.vint 7))

/-- A block whose `cond` string matches no condition grammar. -/
def badCondBlock : Block :=
  .mk (some (.vstr "file")) (some (.vstr "b.txt")) none (some (.vstr "garbage"))

/-! # Theorems -/

theorem string_mk_data : ∀ s : String, String.mk s.data = s
  | ⟨_⟩ => rfl

theorem renderGo_nil (ctx : Context) (fuel : Nat) : renderGo ctx fuel [] = [] := by
  cases fuel <;> rfl

theorem takeWhile_append_singleton {α} (p : α → Bool) (l : List α) (c : α)
    (h : l.all p = true) (hc : p c = false) : (l ++ [c]).takeWhile p = l := by
  induction l with
  | nil => simp [List.takeWhile, hc]
  | cons x xs ih =>
    simp only [List.all_cons, Bool.and_eq_true] at h
    simp [List.takeWhile, h.1, ih h.2]

theorem dropWhile_append_singleton {α} (p : α → Bool) (l : List α) (c : α)
    (h : l.all p = true) (hc : p c = false) : (l ++ [c]).dropWhile p = [c] := by
  induction l with
  | nil => simp [List.dropWhile, hc]
  | cons x xs ih =>
    simp only [List.all_cons, Bool.and_eq_true] at h
    simp [List.dropWhile, h.1, ih h.2]

/-- Rendering a string that is exactly one placeholder token `${k}`
whose key resolves in the context by exact lookup: the value (its first
element for a multi-valued binding) with the token's case style
applied. -/
theorem renderString_token (s : String) (kd : List Char) (ctx : Context) (v : CtxVal)
    (hs : s.data = '$' :: '{' :: (kd ++ ['}']))
    (hne : kd ≠ []) (hall : kd.all isPhChar = true)
    (hv : ctxGet ctx (String.mk kd) = some v) :
    renderString s ctx = applyStyle (ctxValFirst v) (classifyStyle (String.mk kd)) := by
  have htake : (kd ++ ['}']).takeWhile isPhChar = kd :=
    takeWhile_append_singleton _ _ _ hall (by decide)
  have hdrop : (kd ++ ['}']).dropWhile isPhChar = ['}'] :=
    dropWhile_append_singleton _ _ _ hall (by decide)
  unfold renderString
  rw [hs]
  rw [show ('$' :: '{' :: (kd ++ ['}'])).length = (kd.length + 2) + 1 from by simp]
  rw [renderGo]
  rw [if_pos ⟨rfl, rfl⟩]
  simp only [List.tail_cons]
  rw [if_pos (by rw [htake, hdrop]; exact ⟨hne, rfl⟩)]
  rw [htake, hdrop]
  rw [replValue, lookupCtx, hv]
  simp only [List.tail_cons]
  cases v with
  | s w => simp [ctxValFirst, renderGo_nil, string_mk_data]
  | l ws => simp [ctxValFirst, renderGo_nil, string_mk_data]

/-- C3: a block guarded by `${adapter} == 'http'` is materialized in
exactly the expansion branches whose finalized context binds `adapter`
to the string `http`; with `!=` in exactly the complementary branches.
The condition is evaluated against the finalized concrete context of the
branch. -/
theorem c3_condition_precision (beq bne : Block) (ctx : Context) (v : String)
    (fuel : Nat) (fs : FS) (base : Path)
    (hv : ctxGet ctx "adapter" = some (.s v))
    (heq : beq.cond = some (.vstr "${adapter} == 'http'"))
    (hne : bne.cond = some (.vstr "${adapter} != 'http'"))
    (htype : beq.typeStr = some "file") :
    isConditionMet beq ctx = (v == "http") ∧
    isConditionMet bne ctx = (v != "http") ∧
    processChild (fuel + 1) fs base (.vdict beq) ctx =
      (if v == "http" then processFile fs base beq ctx else fs) := by
  have hrender : renderString "${adapter}" ctx = v := by
    rw [renderString_token "${adapter}" "adapter".data ctx (.s v) rfl (by decide)
      (by decide) hv]
    rfl
  have h1 : isConditionMet beq ctx = (v == "http") := by
    simp only [isConditionMet, heq]
    rw [show parseCond "${adapter} == 'http'" = some ("${adapter}", true, "http") from by
      decide
    ]
    simp [hrender]
  have h2 : isConditionMet bne ctx = (v != "http") := by
    simp only [isConditionMet, hne]
    rw [show parseCond "${adapter} != 'http'" = some ("${adapter}", false, "http") from by
      decide
    ]
    simp [hrender]
  refine ⟨h1, h2, ?_⟩
  rw [processChild, h1, htype]
  cases hvh : v == "http" <;> simp

/-! Directory-creation facts used to count the sibling directories
materialization produces. -/

theorem dirs_mkdir1_subset (fs : FS) (p : Path) : fs.dirs ⊆ (fs.mkdir1 p).dirs := by
  unfold FS.mkdir1
  split
  · exact fun d hd => hd
  · intro d hd
    simp [hd]

theorem mem_dirs_mkdir1 (fs : FS) (p d : Path) (h : d ∈ (fs.mkdir1 p).dirs) :
    d ∈ fs.dirs ∨ d = p := by
  unfold FS.mkdir1 at h
  split at h
  · exact .inl h
  · simp only [List.mem_append, List.mem_singleton] at h
    exact h

theorem self_mem_mkdir1 (fs : FS) (p : Path) : p ∈ (fs.mkdir1 p).dirs := by
  unfold FS.mkdir1
  split
  · assumption
  · simp

theorem nodup_mkdir1 (fs : FS) (p : Path) (h : fs.dirs.Nodup) :
    (fs.mkdir1 p).dirs.Nodup := by
  unfold FS.mkdir1
  split
  · exact h
  · rename_i hnp
    rw [List.nodup_append]
    refine ⟨h, List.nodup_singleton p, fun a ha hap => ?_⟩
    rw [List.mem_singleton] at hap
    subst hap
    exact hnp ha

theorem dirs_foldl_mkdir1_subset (ps : List Path) :
    ∀ fs : FS, fs.dirs ⊆ (ps.foldl FS.mkdir1 fs).dirs := by
  induction ps with
  | nil => exact fun fs d hd => hd
  | cons p ps ih =>
    intro fs d hd
    exact ih (fs.mkdir1 p) (dirs_mkdir1_subset fs p hd)

theorem mem_dirs_foldl_mkdir1 (ps : List Path) :
    ∀ (fs : FS) (d : Path), d ∈ (ps.foldl FS.mkdir1 fs).dirs → d ∈ fs.dirs ∨ d ∈ ps := by
  induction ps with
  | nil => exact fun fs d hd => .inl hd
  | cons p ps ih =>
    intro fs d hd
    rcases ih (fs.mkdir1 p) d hd with h | h
    · rcases mem_dirs_mkdir1 fs p d h with h | h
      · exact .inl h
      · exact .inr (by simp [h])
    · exact .inr (by simp [h])

theorem mem_foldl_mkdir1_of_mem (ps : List Path) :
    ∀ (fs : FS) (p : Path), p ∈ ps → p ∈ (ps.foldl FS.mkdir1 fs).dirs := by
  induction ps with
  | nil => intro fs p h; cases h
  | cons q ps ih =>
    intro fs p h
    rcases List.mem_cons.mp h with h | h
    · subst h
      exact dirs_foldl_mkdir1_subset ps (fs.mkdir1 p) (self_mem_mkdir1 fs p)
    · exact ih (fs.mkdir1 q) p h

theorem nodup_foldl_mkdir1 (ps : List Path) :
    ∀ fs : FS, fs.dirs.Nodup → (ps.foldl FS.mkdir1 fs).dirs.Nodup := by
  induction ps with
  | nil => exact fun fs h => h
  | cons p ps ih => exact fun fs h => ih (fs.mkdir1 p) (nodup_mkdir1 fs p h)

theorem prefix_of_mem_pathPrefixes (p q : Path) (h : q ∈ pathPrefixes p) : q <+: p := by
  unfold pathPrefixes at h
  simp only [List.mem_map, List.mem_range] at h
  obtain ⟨i, _, rfl⟩ := h
  exact List.take_prefix _ _

theorem self_mem_pathPrefixes (p : Path) (h : p ≠ []) : p ∈ pathPrefixes p := by
  unfold pathPrefixes
  simp only [List.mem_map, List.mem_range]
  refine ⟨p.length - 1, ?_, ?_⟩
  · have : 0 < p.length := List.length_pos.mpr h
    omega
  · have : p.length - 1 + 1 = p.length := by
      have : 0 < p.length := List.length_pos.mpr h
      omega
    rw [this, List.take_length]

theorem dirs_mkdirAll_subset (fs : FS) (p : Path) : fs.dirs ⊆ (fs.mkdirAll p).dirs :=
  dirs_foldl_mkdir1_subset _ fs

theorem mem_dirs_mkdirAll (fs : FS) (p d : Path) (h : d ∈ (fs.mkdirAll p).dirs) :
    d ∈ fs.dirs ∨ d <+: p := by
  rcases mem_dirs_foldl_mkdir1 _ fs d h with h | h
  · exact .inl h
  · exact .inr (prefix_of_mem_pathPrefixes p d h)

theorem self_mem_mkdirAll (fs : FS) (p : Path) (h : p ≠ []) :
    p ∈ (fs.mkdirAll p).dirs :=
  mem_foldl_mkdir1_of_mem _ fs p (self_mem_pathPrefixes p h)

theorem nodup_mkdirAll (fs : FS) (p : Path) (h : fs.dirs.Nodup) :
    (fs.mkdirAll p).dirs.Nodup :=
  nodup_foldl_mkdir1 _ fs h

theorem dirs_write (fs : FS) (p : Path) (data : String) :
    (fs.write p data).dirs = fs.dirs := by
  unfold FS.write
  split <;> rfl

theorem splitPathAux_ne_nil (acc l : List Char) : splitPathAux acc l ≠ [] := by
  induction l generalizing acc with
  | nil => simp [splitPathAux]
  | cons c rest ih =>
    unfold splitPathAux
    split
    · simp
    · exact ih _

theorem splitPath_ne_nil (s : String) : splitPath s ≠ [] := splitPathAux_ne_nil _ _

theorem pcomp_of_common (a d X : Path) (ha : a <+: X) (hd : d <+: X) : pcomp a d := by
  rcases List.prefix_or_prefix_of_prefix ha hd with h | h
  · exact .inl h
  · exact .inr h

theorem dirsEvolve_refl (fs : FS) (base : Path) : DirsEvolve fs fs base :=
  ⟨fun _ hd => hd, fun _ hd => .inl hd, fun h => h⟩

theorem dirsEvolve_trans {fs1 fs2 fs3 : FS} {base : Path}
    (h12 : DirsEvolve fs1 fs2 base) (h23 : DirsEvolve fs2 fs3 base) :
    DirsEvolve fs1 fs3 base := by
  obtain ⟨s12, m12, n12⟩ := h12
  obtain ⟨s23, m23, n23⟩ := h23
  refine ⟨fun d hd => s23 (s12 hd), ?_, fun h => n23 (n12 h)⟩
  intro d hd
  rcases m23 d hd with h | h
  · exact m12 d h
  · exact .inr h

theorem dirsEvolve_weaken {fs fs' : FS} {big base : Path}
    (h : DirsEvolve fs fs' big) (hb : base <+: big) : DirsEvolve fs fs' base := by
  obtain ⟨s, m, n⟩ := h
  refine ⟨s, ?_, n⟩
  intro d hd
  rcases m d hd with h | h
  · exact .inl h
  · rcases h with h | h
    · exact .inr (.inl (hb.trans h))
    · exact .inr (pcomp_of_common _ _ _ hb h)

theorem mkdirAll_evolve (fs : FS) (p : Path) : DirsEvolve fs (fs.mkdirAll p) p := by
  refine ⟨dirs_mkdirAll_subset _ _, ?_, nodup_mkdirAll _ _⟩
  intro d hd
  rcases mem_dirs_mkdirAll _ _ _ hd with h | h
  · exact .inl h
  · exact .inr (.inr h)

theorem processFile_evolve (fs : FS) (base : Path) (b : Block) (ctx : Context) :
    DirsEvolve fs (processFile fs base b ctx) base := by
  unfold processFile
  split
  · exact dirsEvolve_refl _ _
  · refine ⟨?_, ?_, ?_⟩ <;> simp only [dirs_write] <;> unfold FS.ensureParent <;>
      dsimp only
    · split
      · exact fun d hd => hd
      · exact dirs_mkdirAll_subset _ _
    · split
      · exact fun d hd => .inl hd
      · intro d hd
        rcases mem_dirs_mkdirAll _ _ _ hd with h | h
        · exact .inl h
        · refine .inr (pcomp_of_common _ _ _ ( List.prefix_append _ _)
            (h.trans ( List.dropLast_prefix _)))
    · split
      · exact fun h => h
      · exact nodup_mkdirAll _ _

theorem process_dirs_pack : ∀ fuel : Nat,
    (∀ fs base b ctx, DirsEvolve fs (processDirectory fuel fs base b ctx) base) ∧
    (∀ fs base b ctxs, DirsEvolve fs (processDirCtxs fuel fs base b ctxs) base) ∧
    (∀ fs base b ctx, DirsEvolve fs (processDirOne fuel fs base b ctx) base) ∧
    (∀ fs base cs ctx, DirsEvolve fs (processChildren fuel fs base cs ctx) base) ∧
    (∀ fs base c ctx, DirsEvolve fs (processChild fuel fs base c ctx) base) := by
  intro fuel
  induction fuel with
  | zero =>
    exact ⟨fun fs base b ctx => dirsEvolve_refl _ _,
           fun fs base b ctxs => dirsEvolve_refl _ _,
           fun fs base b ctx => dirsEvolve_refl _ _,
           fun fs base cs ctx => dirsEvolve_refl _ _,
           fun fs base c ctx => dirsEvolve_refl _ _⟩
  | succ fuel ih =>
    obtain ⟨ihD, ihC, ihO, ihK, ihX⟩ := ih
    have hO : ∀ fs base b ctx,
        DirsEvolve fs (processDirOne (fuel + 1) fs base b ctx) base := by
      intro fs base b ctx
      rw [processDirOne]
      dsimp only
      split
      · exact dirsEvolve_refl _ _
      · have hbase : base <+:
            base ++ splitPath (renderString (blockNameStr b) ctx) :=
          List.prefix_append _ _
        have h1 : DirsEvolve fs
            (fs.mkdirAll (base ++ splitPath (renderString (blockNameStr b) ctx)))
            base :=
          dirsEvolve_weaken (mkdirAll_evolve _ _) hbase
        split
        · exact dirsEvolve_trans h1 (dirsEvolve_weaken (ihK _ _ _ _) hbase)
        · exact h1
    have hC : ∀ fs base b ctxs,
        DirsEvolve fs (processDirCtxs (fuel + 1) fs base b ctxs) base := by
      intro fs base b ctxs
      cases ctxs with
      | nil => exact dirsEvolve_refl _ _
      | cons c rest => exact dirsEvolve_trans (ihO fs base b c) (ihC _ base b rest)
    have hX : ∀ fs base c ctx,
        DirsEvolve fs (processChild (fuel + 1) fs base c ctx) base := by
      intro fs base c ctx
      cases c with
      | vdict child =>
        rw [processChild]
        split
        · exact dirsEvolve_refl _ _
        · split
          · exact ihD _ _ _ _
          · split
            · exact processFile_evolve _ _ _ _
            · split
              · exact processFile_evolve _ _ _ _
              · exact dirsEvolve_refl _ _
      | vstr s => exact dirsEvolve_refl _ _
      | vbool bv => exact dirsEvolve_refl _ _
      | vint n => exact dirsEvolve_refl _ _
      | vlist xs => exact dirsEvolve_refl _ _
    have hK : ∀ fs base cs ctx,
        DirsEvolve fs (processChildren (fuel + 1) fs base cs ctx) base := by
      intro fs base cs ctx
      cases cs with
      | nil => exact dirsEvolve_refl _ _
      | cons c rest => exact dirsEvolve_trans (ihX fs base c ctx) (ihK _ base rest ctx)
    exact ⟨fun fs base b ctx => ihC fs base b _, hC, hO, hK, hX⟩

theorem processDirectory_evolve (fuel : Nat) (fs : FS) (base : Path) (b : Block)
    (ctx : Context) : DirsEvolve fs (processDirectory fuel fs base b ctx) base :=
  (process_dirs_pack fuel).1 fs base b ctx

theorem processDirOne_evolve (fuel : Nat) (fs : FS) (base : Path) (b : Block)
    (ctx : Context) : DirsEvolve fs (processDirOne fuel fs base b ctx) base :=
  (process_dirs_pack fuel).2.2.1 fs base b ctx

theorem processChildren_evolve (fuel : Nat) (fs : FS) (base : Path) (cs : List Val)
    (ctx : Context) : DirsEvolve fs (processChildren fuel fs base cs ctx) base :=
  (process_dirs_pack fuel).2.2.2.1 fs base cs ctx

theorem dirPath_ne_nil (base : Path) (s : String) : base ++ splitPath s ≠ [] := by
  intro h
  rcases List.append_eq_nil.mp h with ⟨_, h2⟩
  exact splitPath_ne_nil s h2

/-- Every directory `processDirOne` adds is prefix-comparable with the
directory it creates for its own rendered name. -/
theorem processDirOne_dirs_sharp (fuel : Nat) (fs : FS) (base : Path) (b : Block)
    (ctx : Context) :
    ∀ d ∈ (processDirOne (fuel + 1) fs base b ctx).dirs,
      d ∈ fs.dirs ∨ pcomp (base ++ splitPath (renderString (blockNameStr b) ctx)) d := by
  intro d hd
  rw [processDirOne] at hd
  dsimp only at hd
  split at hd
  · exact .inl hd
  · split at hd
    · rcases (processChildren_evolve fuel _ _ _ _).2.1 d hd with h | h
      · rcases mem_dirs_mkdirAll _ _ _ h with h | h
        · exact .inl h
        · exact .inr (.inr h)
      · exact .inr h
    · rcases mem_dirs_mkdirAll _ _ _ hd with h | h
      · exact .inl h
      · exact .inr (.inr h)

/-- When its condition holds, `processDirOne` creates the directory for
its rendered name. -/
theorem processDirOne_creates (fuel : Nat) (fs : FS) (base : Path) (b : Block)
    (ctx : Context) (hc : isConditionMet b ctx = true) :
    base ++ splitPath (renderString (blockNameStr b) ctx) ∈
      (processDirOne (fuel + 1) fs base b ctx).dirs := by
  rw [processDirOne]
  dsimp only
  rw [hc]
  simp only [Bool.not_true, Bool.false_eq_true, if_false]
  have hmem : base ++ splitPath (renderString (blockNameStr b) ctx) ∈
      (fs.mkdirAll (base ++ splitPath (renderString (blockNameStr b) ctx))).dirs :=
    self_mem_mkdirAll _ _ (dirPath_ne_nil _ _)
  split
  · exact (processChildren_evolve fuel _ _ _ _).1 hmem
  · exact hmem

theorem listProduct_single (vs : List String) :
    listProduct [vs] = vs.map (fun v => [v]) := by
  induction vs with
  | nil => rfl
  | cons v rest ih =>
    simp only [listProduct, List.flatMap_cons] at ih ⊢
    simp at ih ⊢
    exact ih

/-- `_expand_contexts_for_block` when exactly one referenced multi-valued
key `k ↦ vs` occurs in the context (at any position) and every other
entry is fixed: one concrete context per value of `vs`, in order, each
the fixed entries (collapsed) followed by `k` bound to that single
value. -/
theorem expand_single_multi (b : Block) (k : String) (vs : List String)
    (pre post : Context)
    (hused : (usedKeys b).contains k = true) (hlen : 1 < vs.length)
    (hpre : ∀ e ∈ pre, isMultiEntry (usedKeys b) e = false)
    (hpost : ∀ e ∈ post, isMultiEntry (usedKeys b) e = false) :
    expandContextsForBlock b (pre ++ (k, .l vs) :: post) =
      vs.map (fun w =>
        ((pre ++ post).map (fun e => (e.1, collapseVal e.2))) ++ [(k, CtxVal.s w)]) := by
  have hmem : k ∈ usedKeys b := by simpa using hused
  have hm : isMultiEntry (usedKeys b) (k, .l vs) = true := by
    simp [isMultiEntry, hmem, hlen]
  have h1 : (pre ++ (k, CtxVal.l vs) :: post).filter (isMultiEntry (usedKeys b)) =
      [(k, CtxVal.l vs)] := by
    rw [List.filter_append, List.filter_cons, hm]
    rw [List.filter_eq_nil_iff.mpr (fun e he => by simp [hpre e he]),
        List.filter_eq_nil_iff.mpr (fun e he => by simp [hpost e he])]
    rfl
  have h2 : (pre ++ (k, CtxVal.l vs) :: post).filter
      (fun e => ! isMultiEntry (usedKeys b) e) = pre ++ post := by
    rw [List.filter_append, List.filter_cons]
    rw [hm]
    rw [List.filter_eq_self.mpr (fun e he => by simp [hpre e he]),
        List.filter_eq_self.mpr (fun e he => by simp [hpost e he])]
    rfl
  simp only [expandContextsForBlock]
  rw [h1, h2]
  rw [show ([(k, CtxVal.l vs)].isEmpty) = false from rfl]
  simp only [Bool.false_eq_true, if_false, List.map_cons, List.map_nil]
  rw [listProduct_single]
  rw [List.map_map]
  apply List.map_congr_left
  intro w _
  rfl

theorem pcomp_length_eq {a d : Path} (h : pcomp a d) (hl : a.length = d.length) :
    a = d := by
  rcases h with h | h
  · exact h.eq_of_length hl
  · exact (h.eq_of_length hl.symm).symm

theorem length_filter_eq_two {l : List Path} {x y : Path} (hnd : l.Nodup) (hxy : x ≠ y)
    (hmem : ∀ d, d ∈ l ↔ d = x ∨ d = y) : l.length = 2 := by
  have hfin : l.toFinset = {x, y} := by
    ext d
    simp only [List.mem_toFinset, Finset.mem_insert, Finset.mem_singleton]
    exact hmem d
  have hcard := List.toFinset_card_of_nodup hnd
  rw [hfin, Finset.card_pair hxy] at hcard
  exact hcard.symm

/-- C1 as amended: with `adapter`-like key `k` bound to exactly
`[http, kafka]`, referenced in the block's subtree, no other context
entry multi-valued-and-referenced, no condition on the block, and the
block's own name rendering (under the two finalized contexts) to two
distinct single-segment directory names, context expansion returns
exactly the two concrete contexts in binding order, materialization runs
the block's body once per value in that order, and exactly two sibling
directories are created under the target directory. -/
theorem c1_expansion_two_siblings
    (b : Block) (k : String) (pre post : Context) (base : Path) (n1 n2 : String)
    (fuel : Nat)
    (hused : (usedKeys b).contains k = true)
    (hpre : ∀ e ∈ pre, isMultiEntry (usedKeys b) e = false)
    (hpost : ∀ e ∈ post, isMultiEntry (usedKeys b) e = false)
    (hcond : b.cond = none)
    (hn1 : splitPath (renderString (blockNameStr b)
      (((pre ++ post).map (fun e => (e.1, collapseVal e.2))) ++ [(k, CtxVal.s "http")]))
      = [n1])
    (hn2 : splitPath (renderString (blockNameStr b)
      (((pre ++ post).map (fun e => (e.1, collapseVal e.2))) ++ [(k, CtxVal.s "kafka")]))
      = [n2])
    (hneq : n1 ≠ n2) :
    expandContextsForBlock b (pre ++ (k, CtxVal.l ["http", "kafka"]) :: post) =
      [((pre ++ post).map (fun e => (e.1, collapseVal e.2))) ++ [(k, CtxVal.s "http")],
       ((pre ++ post).map (fun e => (e.1, collapseVal e.2))) ++ [(k, CtxVal.s "kafka")]] ∧
    processDirectory (fuel + 4) FS.empty base b
        (pre ++ (k, CtxVal.l ["http", "kafka"]) :: post) =
      processDirOne (fuel + 1)
        (processDirOne (fuel + 2) FS.empty base b
          (((pre ++ post).map (fun e => (e.1, collapseVal e.2))) ++
            [(k, CtxVal.s "http")]))
        base b
        (((pre ++ post).map (fun e => (e.1, collapseVal e.2))) ++
          [(k, CtxVal.s "kafka")]) ∧
    ((processDirectory (fuel + 4) FS.empty base b
        (pre ++ (k, CtxVal.l ["http", "kafka"]) :: post)).dirs.filter
      (isChildDirOf base)).length = 2 := by
  have hcmet : ∀ ctx : Context, isConditionMet b ctx = true := by
    intro ctx
    simp only [isConditionMet, hcond]
  have hexp :
      expandContextsForBlock b (pre ++ (k, CtxVal.l ["http", "kafka"]) :: post) =
      [((pre ++ post).map (fun e => (e.1, collapseVal e.2))) ++ [(k, CtxVal.s "http")],
       ((pre ++ post).map (fun e => (e.1, collapseVal e.2))) ++
         [(k, CtxVal.s "kafka")]] := by
    rw [expand_single_multi b k ["http", "kafka"] pre post hused (by decide) hpre hpost]
    rfl
  have hdec :
      processDirectory (fuel + 4) FS.empty base b
        (pre ++ (k, CtxVal.l ["http", "kafka"]) :: post) =
      processDirOne (fuel + 1)
        (processDirOne (fuel + 2) FS.empty base b
          (((pre ++ post).map (fun e => (e.1, collapseVal e.2))) ++
            [(k, CtxVal.s "http")]))
        base b
        (((pre ++ post).map (fun e => (e.1, collapseVal e.2))) ++
          [(k, CtxVal.s "kafka")]) := by
    rw [show fuel + 4 = (fuel + 3) + 1 from rfl, processDirectory, hexp]
    rw [show fuel + 3 = (fuel + 2) + 1 from rfl, processDirCtxs]
    rw [show fuel + 2 = (fuel + 1) + 1 from rfl, processDirCtxs]
    rw [processDirCtxs]
  refine ⟨hexp, hdec, ?_⟩
  rw [hdec]
  have hA1 : base ++ [n1] ∈
      (processDirOne (fuel + 2) FS.empty base b
        (((pre ++ post).map (fun e => (e.1, collapseVal e.2))) ++
          [(k, CtxVal.s "http")])).dirs := by
    have := processDirOne_creates (fuel + 1) FS.empty base b
      (((pre ++ post).map (fun e => (e.1, collapseVal e.2))) ++ [(k, CtxVal.s "http")])
      (hcmet _)
    rw [hn1] at this
    exact this
  have hA2 : ∀ d ∈
      (processDirOne (fuel + 2) FS.empty base b
        (((pre ++ post).map (fun e => (e.1, collapseVal e.2))) ++
          [(k, CtxVal.s "http")])).dirs, pcomp (base ++ [n1]) d := by
    intro d hd
    have := processDirOne_dirs_sharp (fuel + 1) FS.empty base b
      (((pre ++ post).map (fun e => (e.1, collapseVal e.2))) ++ [(k, CtxVal.s "http")])
      d hd
    rw [hn1] at this
    rcases this with h | h
    · cases h
    · exact h
  have hB2 : ∀ d ∈
      (processDirOne (fuel + 1)
        (processDirOne (fuel + 2) FS.empty base b
          (((pre ++ post).map (fun e => (e.1, collapseVal e.2))) ++
            [(k, CtxVal.s "http")]))
        base b
        (((pre ++ post).map (fun e => (e.1, collapseVal e.2))) ++
          [(k, CtxVal.s "kafka")])).dirs,
      pcomp (base ++ [n1]) d ∨ pcomp (base ++ [n2]) d := by
    intro d hd
    have := processDirOne_dirs_sharp fuel
      (processDirOne (fuel + 2) FS.empty base b
        (((pre ++ post).map (fun e => (e.1, collapseVal e.2))) ++
          [(k, CtxVal.s "http")]))
      base b
      (((pre ++ post).map (fun e => (e.1, collapseVal e.2))) ++ [(k, CtxVal.s "kafka")])
      d hd
    rw [hn2] at this
    rcases this with h | h
    · exact .inl (hA2 d h)
    · exact .inr h
  have hBn2 : base ++ [n2] ∈
      (processDirOne (fuel + 1)
        (processDirOne (fuel + 2) FS.empty base b
          (((pre ++ post).map (fun e => (e.1, collapseVal e.2))) ++
            [(k, CtxVal.s "http")]))
        base b
        (((pre ++ post).map (fun e => (e.1, collapseVal e.2))) ++
          [(k, CtxVal.s "kafka")])).dirs := by
    have := processDirOne_creates fuel
      (processDirOne (fuel + 2) FS.empty base b
        (((pre ++ post).map (fun e => (e.1, collapseVal e.2))) ++
          [(k, CtxVal.s "http")]))
      base b
      (((pre ++ post).map (fun e => (e.1, collapseVal e.2))) ++ [(k, CtxVal.s "kafka")])
      (hcmet _)
    rw [hn2] at this
    exact this
  have hBn1 : base ++ [n1] ∈
      (processDirOne (fuel + 1)
        (processDirOne (fuel + 2) FS.empty base b
          (((pre ++ post).map (fun e => (e.1, collapseVal e.2))) ++
            [(k, CtxVal.s "http")]))
        base b
        (((pre ++ post).map (fun e => (e.1, collapseVal e.2))) ++
          [(k, CtxVal.s "kafka")])).dirs :=
    (processDirOne_evolve (fuel + 1) _ base b _).1 hA1
  have hnodup :
      (processDirOne (fuel + 1)
        (processDirOne (fuel + 2) FS.empty base b
          (((pre ++ post).map (fun e => (e.1, collapseVal e.2))) ++
            [(k, CtxVal.s "http")]))
        base b
        (((pre ++ post).map (fun e => (e.1, collapseVal e.2))) ++
          [(k, CtxVal.s "kafka")])).dirs.Nodup :=
    (processDirOne_evolve (fuel + 1) _ base b _).2.2
      ((processDirOne_evolve (fuel + 2) FS.empty base b _).2.2 List.nodup_nil)
  have hij : base ++ [n1] ≠ base ++ [n2] := by
    intro h
    exact hneq (by simpa using h)
  apply length_filter_eq_two (hnodup.filter _) hij
  intro d
  constructor
  · intro hd
    rw [List.mem_filter] at hd
    obtain ⟨hdmem, hdP⟩ := hd
    unfold isChildDirOf at hdP
    rw [Bool.and_eq_true, beq_iff_eq, List.isPrefixOf_iff_prefix] at hdP
    obtain ⟨hdlen, _⟩ := hdP
    rcases hB2 d hdmem with h | h
    · refine .inl (pcomp_length_eq h (by simp [hdlen])).symm
    · refine .inr (pcomp_length_eq h (by simp [hdlen])).symm
  · intro hd
    rw [List.mem_filter]
    rcases hd with rfl | rfl
    · refine ⟨hBn1, ?_⟩
      unfold isChildDirOf
      rw [Bool.and_eq_true, beq_iff_eq, List.isPrefixOf_iff_prefix]
      exact ⟨by simp, List.prefix_append _ _⟩
    · refine ⟨hBn2, ?_⟩
      unfold isChildDirOf
      rw [Bool.and_eq_true, beq_iff_eq, List.isPrefixOf_iff_prefix]
      exact ⟨by simp, List.prefix_append _ _⟩

/-- C1 counterexample: for a directory block whose subtree references
`adapter` (bound to `[http, kafka]`, the only multi-valued key) only in
a child's name, context expansion returns exactly two concrete contexts,
but materialization creates exactly one directory under the target
directory (the fixed name `app`), not two sibling directories — refuting
the claim for this block. -/
theorem c1_counterexample :
    (expandContextsForBlock fixedNameDir adapterCtx).length = 2 ∧
    ((processDirectory 20 FS.empty ["out"] fixedNameDir adapterCtx).dirs.filter
      (isChildDirOf ["out"])).length = 1 := by
  constructor <;> decide

/-- C1 witness: the amended theorem at the directory block named
`${adapter}` containing a `README.md`, with `adapter = [http, kafka]`. -/
theorem c1_witness :
    expandContextsForBlock adapterNameDir [("adapter", CtxVal.l ["http", "kafka"])] =
      [[("adapter", CtxVal.s "http")], [("adapter", CtxVal.s "kafka")]] ∧
    processDirectory 4 FS.empty ["out"] adapterNameDir
        [("adapter", CtxVal.l ["http", "kafka"])] =
      processDirOne 1
        (processDirOne 2 FS.empty ["out"] adapterNameDir [("adapter", CtxVal.s "http")])
        ["out"] adapterNameDir [("adapter", CtxVal.s "kafka")] ∧
    ((processDirectory 4 FS.empty ["out"] adapterNameDir
        [("adapter", CtxVal.l ["http", "kafka"])]).dirs.filter
      (isChildDirOf ["out"])).length = 2 :=
  c1_expansion_two_siblings adapterNameDir "adapter" [] [] ["out"] "http" "kafka" 0
    (by decide) (fun e he => absurd he (List.not_mem_nil e))
    (fun e he => absurd he (List.not_mem_nil e)) rfl (by decide) (by decide) (by decide)

/-! Lowercase canonicalization facts. -/

theorem pyIsUpper_pyLowerChar (c : Char) : pyIsUpper (pyLowerChar c) = false := by
  unfold pyLowerChar
  split
  · rename_i h
    have h65 : 65 ≤ c.toNat := h.1
    have h90 : c.toNat ≤ 90 := h.2
    have hv : (Char.ofNat (c.toNat + 32)).toNat = c.toNat + 32 := by
      have hval : (c.toNat + 32).isValidChar := Or.inl (by omega)
      rw [Char.ofNat, dif_pos hval]
      show (UInt32.ofNatCore (c.toNat + 32) _).toNat = c.toNat + 32
      simp [UInt32.ofNatCore, UInt32.toNat, BitVec.toNat_ofNat,
        Nat.mod_eq_of_lt (show c.toNat + 32 < 4294967296 by omega)]
    apply decide_eq_false
    intro hcon
    have h2 : (Char.ofNat (c.toNat + 32)).toNat ≤ 90 := hcon.2
    rw [hv] at h2
    omega
  · rename_i h
    exact decide_eq_false h

theorem pyLowerChar_eq_self_of_not_upper (c : Char) (h : pyIsUpper c = false) :
    pyLowerChar c = c := by
  rw [pyLowerChar, if_neg (of_decide_eq_false h)]

theorem pyLowerChar_idem (c : Char) : pyLowerChar (pyLowerChar c) = pyLowerChar c :=
  pyLowerChar_eq_self_of_not_upper _ (pyIsUpper_pyLowerChar c)

theorem pyLowerStr_idem (s : String) : pyLowerStr (pyLowerStr s) = pyLowerStr s := by
  unfold pyLowerStr
  rw [show (String.mk (s.data.map pyLowerChar)).data = s.data.map pyLowerChar from rfl]
  rw [List.map_map]
  congr 1
  apply List.map_congr_left
  intro c _
  exact pyLowerChar_idem c

theorem hasAsciiUpper_pyLowerStr (s : String) : hasAsciiUpper (pyLowerStr s) = false := by
  unfold hasAsciiUpper pyLowerStr
  rw [show (String.mk (s.data.map pyLowerChar)).data = s.data.map pyLowerChar from rfl]
  rw [List.any_map]
  rw [List.any_eq_false]
  intro c _
  simp [Function.comp, pyIsUpper_pyLowerChar]

theorem mem_findPlaceholdersInString_lower {x s : String}
    (h : x ∈ findPlaceholdersInString s) : pyLowerStr x = x := by
  unfold findPlaceholdersInString at h
  rw [List.mem_map] at h
  obtain ⟨t, _, rfl⟩ := h
  exact pyLowerStr_idem t

theorem mem_findPlaceholdersInBlock_lower : ∀ (fuel : Nat) (v : Val) (x : String),
    x ∈ findPlaceholdersInBlock fuel v → pyLowerStr x = x := by
  intro fuel
  induction fuel with
  | zero => intro v x h; cases h
  | succ fuel ih =>
    intro v x h
    match v with
    | .vstr s => cases h
    | .vbool bv => cases h
    | .vint n => cases h
    | .vlist xs => cases h
    | .vdict b =>
      rw [findPlaceholdersInBlock] at h
      simp only [List.mem_append] at h
      rcases h with ((h | h) | h) | h
      · match hn : b.name, h with
        | some (.vstr s), h => exact mem_findPlaceholdersInString_lower h
      · match hn : b.cond, h with
        | some (.vstr s), h => exact mem_findPlaceholdersInString_lower h
      · split at h
        · match hn : b.content, h with
          | some (.vstr s), h => exact mem_findPlaceholdersInString_lower h
        · cases h
      · split at h
        · match hn : b.content, h with
          | some (.vlist cs), h =>
            have h' : x ∈ (cs.map (findPlaceholdersInBlock fuel)).flatten := h
            rw [List.mem_flatten] at h'
            obtain ⟨l, hl, hx⟩ := h'
            rw [List.mem_map] at hl
            obtain ⟨c, _, rfl⟩ := hl
            exact ih c x hx
        · cases h

theorem upper_not_in_usedKeys (b : Block) (k : String) (h : hasAsciiUpper k = true) :
    (usedKeys b).contains k = false := by
  cases hck : (usedKeys b).contains k with
  | false => rfl
  | true =>
    have hk : k ∈ usedKeys b := by simpa using hck
    have hlow := mem_findPlaceholdersInBlock_lower _ _ _ hk
    rw [← hlow, hasAsciiUpper_pyLowerStr] at h
    cases h

theorem ctxGet_append_first (l1 l2 : Context) (k : String) (v : CtxVal)
    (h : ∀ e ∈ l1, e.1 ≠ k) : ctxGet (l1 ++ (k, v) :: l2) k = some v := by
  induction l1 with
  | nil => simp [ctxGet, List.find?]
  | cons x xs ih =>
    have hx : (x.1 == k) = false := by
      have := h x (List.mem_cons_self _ _)
      simp [this]
    rw [List.cons_append]
    rw [ctxGet] at ih ⊢
    rw [List.find?_cons, hx]
    exact ih (fun e he => h e (List.mem_cons_of_mem _ he))

theorem collapseVal_list_of_len_ne_one (vs : List String) (h : vs.length ≠ 1) :
    collapseVal (.l vs) = .l vs := by
  match vs with
  | [] => rfl
  | [x] => exact absurd rfl h
  | x :: y :: rest => rfl

/-- A key that is not in the referenced set goes to the fixed partition
of `_expand_contexts_for_block` unchanged (when bound to a non-singleton
list), so every produced concrete context still binds it to the full
list. -/
theorem expand_unused_key_fixed (b : Block) (k : String) (vs : List String)
    (pre post : Context)
    (hnotused : (usedKeys b).contains k = false)
    (hlen : vs.length ≠ 1)
    (hpre : ∀ e ∈ pre, e.1 ≠ k) :
    ∀ c ∈ expandContextsForBlock b (pre ++ (k, CtxVal.l vs) :: post),
      ctxGet c k = some (.l vs) := by
  have hm : isMultiEntry (usedKeys b) (k, CtxVal.l vs) = false := by
    have hnm : ¬ k ∈ usedKeys b := by simpa using hnotused
    simp [isMultiEntry]
    intro hk
    exact absurd hk hnm
  have h2 : (pre ++ (k, CtxVal.l vs) :: post).filter
      (fun e => ! isMultiEntry (usedKeys b) e) =
      pre.filter (fun e => ! isMultiEntry (usedKeys b) e) ++ (k, CtxVal.l vs) ::
        post.filter (fun e => ! isMultiEntry (usedKeys b) e) := by
    rw [List.filter_append, List.filter_cons, hm]
    rfl
  have hfix : ((pre ++ (k, CtxVal.l vs) :: post).filter
      (fun e => ! isMultiEntry (usedKeys b) e)).map (fun e => (e.1, collapseVal e.2)) =
      (pre.filter (fun e => ! isMultiEntry (usedKeys b) e)).map
        (fun e => (e.1, collapseVal e.2)) ++ (k, CtxVal.l vs) ::
        (post.filter (fun e => ! isMultiEntry (usedKeys b) e)).map
          (fun e => (e.1, collapseVal e.2)) := by
    rw [h2, List.map_append, List.map_cons]
    rw [show collapseVal (CtxVal.l vs) = CtxVal.l vs from
      collapseVal_list_of_len_ne_one vs hlen]
  have hkeys : ∀ e ∈ (pre.filter (fun e => ! isMultiEntry (usedKeys b) e)).map
      (fun e => (e.1, collapseVal e.2)), e.1 ≠ k := by
    intro e he
    rw [List.mem_map] at he
    obtain ⟨e0, he0, rfl⟩ := he
    exact hpre e0 (List.mem_of_mem_filter he0)
  intro c hc
  simp only [expandContextsForBlock] at hc
  rw [hfix] at hc
  split at hc
  · rw [List.mem_singleton] at hc
    subst hc
    exact ctxGet_append_first _ _ _ _ hkeys
  · rw [List.mem_map] at hc
    obtain ⟨combo, _, rfl⟩ := hc
    rw [List.append_assoc, List.cons_append] at *
    exact ctxGet_append_first _ _ _ _ hkeys

/-- C9: multi-valued expansion matches context keys case-sensitively
against the lowercased tokens: a multi-valued binding under a key with an
uppercase letter is never expanded — every concrete context still binds
it to the full list — and rendering a `${...}` token that resolves to it
falls back to the list's first value (with the token's case style),
even though single-valued lookup is case-insensitive. -/
theorem c9_upper_key_never_expanded
    (b : Block) (k : String) (vs : List String) (pre post : Context) (s : String)
    (hupper : hasAsciiUpper k = true) (hlen : 1 < vs.length)
    (hpre : ∀ e ∈ pre, e.1 ≠ k) :
    (∀ c ∈ expandContextsForBlock b (pre ++ (k, CtxVal.l vs) :: post),
      ctxGet c k = some (.l vs)) ∧
    (∀ ctx : Context, s.data = '$' :: '{' :: (k.data ++ ['}']) →
      k.data ≠ [] → k.data.all isPhChar = true → ctxGet ctx k = some (.l vs) →
      renderString s ctx = applyStyle (vs.headD "") (classifyStyle k)) := by
  constructor
  · exact expand_unused_key_fixed b k vs pre post
      (upper_not_in_usedKeys b k hupper) (by omega) hpre
  · intro ctx hs hne hall hv
    exact renderString_token s k.data ctx (.l vs) hs hne hall hv

/-- C9 witness: the theorem at the block named `${Adapter}` with the
multi-valued binding `Adapter = [http, kafka]`: the sole expanded
context still binds `Adapter` to the full list, and rendering
`${Adapter}` falls back to the first value `http` styled as `Http`. -/
theorem c9_witness :
    ctxGet [("Adapter", CtxVal.l ["http", "kafka"])] "Adapter" =
      some (CtxVal.l ["http", "kafka"]) ∧
    renderString "${Adapter}" [("Adapter", CtxVal.l ["http", "kafka"])] =
      applyStyle (["http", "kafka"].headD "") (classifyStyle "Adapter") :=
  ⟨(c9_upper_key_never_expanded upperNameDir "Adapter" ["http", "kafka"] [] []
      "${Adapter}" (by decide) (by decide)
      (fun e he => absurd he (List.not_mem_nil e))).1
      [("Adapter", CtxVal.l ["http", "kafka"])] (by decide),
   (c9_upper_key_never_expanded upperNameDir "Adapter" ["http", "kafka"] [] []
      "${Adapter}" (by decide) (by decide)
      (fun e he => absurd he (List.not_mem_nil e))).2
      [("Adapter", CtxVal.l ["http", "kafka"])] rfl (by decide) (by decide) rfl⟩

/-! Invariance of rendering, conditions and expansion under insertion of
a context binding whose key no rendered token resolves to (C5). -/

theorem find?_middle_of_false {α} (p : α → Bool) (pre post : List α) (x : α)
    (hx : p x = false) : (pre ++ x :: post).find? p = (pre ++ post).find? p := by
  induction pre with
  | nil => simp [List.find?_cons, hx]
  | cons a l ih =>
    rw [List.cons_append, List.cons_append, List.find?_cons, List.find?_cons]
    cases hpa : p a
    · exact ih
    · rfl

theorem ctxGet_insert (k t : String) (v : CtxVal) (pre post : Context)
    (hne : pyLowerStr t ≠ pyLowerStr k) :
    ctxGet (pre ++ (k, v) :: post) t = ctxGet (pre ++ post) t := by
  unfold ctxGet
  rw [find?_middle_of_false _ _ _ _ (by
    rw [beq_eq_false_iff_ne]
    intro hkt
    exact hne (congrArg pyLowerStr hkt.symm))]

theorem scanFind_insert (k canonical : String) (v : CtxVal) (pre post : Context)
    (hne : pyLowerStr k ≠ canonical) :
    (pre ++ (k, v) :: post).find? (fun e => pyLowerStr e.1 == canonical) =
      (pre ++ post).find? (fun e => pyLowerStr e.1 == canonical) :=
  find?_middle_of_false _ _ _ _ (by
    rw [beq_eq_false_iff_ne]
    exact hne)

theorem lookupCtx_insert (k rawKey : String) (v : CtxVal) (pre post : Context)
    (hne : pyLowerStr rawKey ≠ pyLowerStr k) :
    lookupCtx (pre ++ (k, v) :: post) rawKey (pyLowerStr rawKey) =
      lookupCtx (pre ++ post) rawKey (pyLowerStr rawKey) := by
  unfold lookupCtx
  rw [ctxGet_insert k rawKey v pre post hne]
  rw [ctxGet_insert k (pyLowerStr rawKey) v pre post (by
    rw [pyLowerStr_idem]
    exact hne)]
  rw [scanFind_insert k (pyLowerStr rawKey) v pre post (fun h => hne h.symm)]

theorem replValue_insert (k rawKey : String) (v : CtxVal) (pre post : Context)
    (hne : pyLowerStr rawKey ≠ pyLowerStr k) :
    replValue (pre ++ (k, v) :: post) rawKey = replValue (pre ++ post) rawKey := by
  unfold replValue
  rw [lookupCtx_insert k rawKey v pre post hne]

theorem renderGo_insert (k : String) (v : CtxVal) (pre post : Context) :
    ∀ (fuel : Nat) (l : List Char),
      (∀ t ∈ phTokens fuel l, pyLowerStr t ≠ pyLowerStr k) →
      renderGo (pre ++ (k, v) :: post) fuel l = renderGo (pre ++ post) fuel l := by
  intro fuel
  induction fuel with
  | zero => intro l _; rfl
  | succ fuel ih =>
    intro l h
    match l with
    | [] => rfl
    | c :: rest =>
      rw [renderGo, renderGo]
      by_cases h1 : c = '$' ∧ rest.head? = some '{'
      · rw [if_pos h1, if_pos h1]
        by_cases h2 : rest.tail.takeWhile isPhChar ≠ [] ∧
            (rest.tail.dropWhile isPhChar).head? = some '}'
        · rw [if_pos h2, if_pos h2]
          have htok : String.mk (rest.tail.takeWhile isPhChar) ∈
              phTokens (fuel + 1) (c :: rest) := by
            rw [phTokens, if_pos h1, if_pos h2]
            exact List.mem_cons_self _ _
          rw [replValue_insert k _ v pre post (h _ htok)]
          congr 1
          apply ih
          intro t ht
          apply h
          rw [phTokens, if_pos h1, if_pos h2]
          exact List.mem_cons_of_mem _ ht
        · rw [if_neg h2, if_neg h2]
          congr 1
          apply ih
          intro t ht
          apply h
          rw [phTokens, if_pos h1, if_neg h2]
          exact ht
      · rw [if_neg h1, if_neg h1]
        congr 1
        apply ih
        intro t ht
        apply h
        rw [phTokens, if_neg h1]
        exact ht

theorem renderString_insert (k : String) (v : CtxVal) (pre post : Context) (s : String)
    (h : pyLowerStr k ∉ findPlaceholdersInString s) :
    renderString s (pre ++ (k, v) :: post) = renderString s (pre ++ post) := by
  unfold renderString
  congr 1
  apply renderGo_insert
  intro t ht hkt
  apply h
  unfold findPlaceholdersInString
  rw [List.mem_map]
  exact ⟨t, ht, hkt⟩

theorem isConditionMet_insert (k : String) (v : CtxVal) (pre post : Context)
    (b : Block) (hb : ¬ MentionsKey k b) :
    isConditionMet b (pre ++ (k, v) :: post) = isConditionMet b (pre ++ post) := by
  cases hc : b.cond with
  | none => simp only [isConditionMet, hc]
  | some cv =>
    cases cv with
    | vbool bv => simp only [isConditionMet, hc]
    | vint n => simp only [isConditionMet, hc]
    | vlist xs => simp only [isConditionMet, hc]
    | vdict bb => simp only [isConditionMet, hc]
    | vstr s =>
      simp only [isConditionMet, hc]
      cases hp : parseCond s with
      | none => rfl
      | some tri =>
        obtain ⟨tok, isEq, lit⟩ := tri
        simp only [renderString_insert k v pre post tok
          (fun hmem => hb (MentionsKey.condTok b s tok lit isEq hc hp hmem))]

theorem findPlaceholdersInBlock_non_dict (fuel : Nat) (v : Val)
    (h : ∀ b : Block, v ≠ .vdict b) : findPlaceholdersInBlock fuel v = [] := by
  cases fuel with
  | zero => rfl
  | succ fuel =>
    cases v with
    | vstr s => rfl
    | vbool bv => rfl
    | vint n => rfl
    | vlist xs => rfl
    | vdict b => exact absurd rfl (h b)

theorem mentions_of_mem_find : ∀ (fuel : Nat) (b : Block) (k : String),
    k ∈ findPlaceholdersInBlock fuel (.vdict b) → MentionsKey k b := by
  intro fuel
  induction fuel with
  | zero => intro b k h; cases h
  | succ fuel ih =>
    intro b k h
    have hlow : pyLowerStr k = k := mem_findPlaceholdersInBlock_lower _ _ _ h
    rw [findPlaceholdersInBlock] at h
    simp only [List.mem_append] at h
    rcases h with ((h | h) | h) | h
    · match hn : b.name, h with
      | some (.vstr s), h =>
        apply MentionsKey.name
        have hbn : blockNameStr b = s := by
          rw [blockNameStr, hn]
          rfl
        have h' : k ∈ findPlaceholdersInString s := h
        rw [hlow, hbn]
        exact h'
    · match hc : b.cond, h with
      | some (.vstr s), h =>
        have h' : k ∈ findPlaceholdersInString s := h
        exact MentionsKey.cond b s hc (by rw [hlow]; exact h')
    · split at h
      · match hct : b.content, h with
        | some (.vstr s), h =>
          have h' : k ∈ findPlaceholdersInString s := h
          exact MentionsKey.content b s hct (by rw [hlow]; exact h')
      · cases h
    · split at h
      · match hct : b.content, h with
        | some (.vlist cs), h =>
          have h' : k ∈ (cs.map (findPlaceholdersInBlock fuel)).flatten := h
          rw [List.mem_flatten] at h'
          obtain ⟨l, hl, hk⟩ := h'
          rw [List.mem_map] at hl
          obtain ⟨c, hcmem, rfl⟩ := hl
          cases c with
          | vdict cb => exact MentionsKey.child b cs cb hct hcmem (ih cb k hk)
          | vstr s =>
            rw [findPlaceholdersInBlock_non_dict fuel _ (fun b h => by cases h)] at hk
            cases hk
          | vbool bv =>
            rw [findPlaceholdersInBlock_non_dict fuel _ (fun b h => by cases h)] at hk
            cases hk
          | vint n =>
            rw [findPlaceholdersInBlock_non_dict fuel _ (fun b h => by cases h)] at hk
            cases hk
          | vlist xs =>
            rw [findPlaceholdersInBlock_non_dict fuel _ (fun b h => by cases h)] at hk
            cases hk
      · cases h

theorem notMentions_contains_false (b : Block) (k : String)
    (hb : ¬ MentionsKey k b) : (usedKeys b).contains k = false := by
  cases hck : (usedKeys b).contains k with
  | false => rfl
  | true =>
    have hk : k ∈ usedKeys b := by simpa using hck
    exact absurd (mentions_of_mem_find _ b k hk) hb

theorem forall₂_map_same {α β : Type} (R : β → β → Prop) (f g : α → β) (l : List α)
    (h : ∀ x ∈ l, R (f x) (g x)) : List.Forall₂ R (l.map f) (l.map g) := by
  induction l with
  | nil => exact List.Forall₂.nil
  | cons x xs ih =>
    exact List.Forall₂.cons (h x (List.mem_cons_self _ _))
      (ih (fun y hy => h y (List.mem_cons_of_mem _ hy)))

/-- Inserting a non-referenced, non-singleton-list binding into the base
context inserts the same binding into every expanded concrete context,
at the corresponding position. -/
theorem expand_insert (b : Block) (k : String) (vs : List String)
    (hnotused : (usedKeys b).contains k = false) (hlen : vs.length ≠ 1)
    (pre post : Context) :
    List.Forall₂ (InsCtx k (.l vs))
      (expandContextsForBlock b (pre ++ (k, .l vs) :: post))
      (expandContextsForBlock b (pre ++ post)) := by
  have hm : isMultiEntry (usedKeys b) (k, CtxVal.l vs) = false := by
    have hnm : ¬ k ∈ usedKeys b := by simpa using hnotused
    simp [isMultiEntry]
    intro hk
    exact absurd hk hnm
  have hmulti : (pre ++ (k, CtxVal.l vs) :: post).filter (isMultiEntry (usedKeys b)) =
      (pre ++ post).filter (isMultiEntry (usedKeys b)) := by
    rw [List.filter_append, List.filter_append, List.filter_cons, hm]
    simp
  have hfix : ((pre ++ (k, CtxVal.l vs) :: post).filter
      (fun e => ! isMultiEntry (usedKeys b) e)).map (fun e => (e.1, collapseVal e.2)) =
      ((pre.filter (fun e => ! isMultiEntry (usedKeys b) e)).map
        (fun e => (e.1, collapseVal e.2))) ++ (k, CtxVal.l vs) ::
        ((post.filter (fun e => ! isMultiEntry (usedKeys b) e)).map
          (fun e => (e.1, collapseVal e.2))) := by
    rw [List.filter_append, List.filter_cons, hm]
    simp [collapseVal_list_of_len_ne_one vs hlen]
  have hfix2 : ((pre ++ post).filter
      (fun e => ! isMultiEntry (usedKeys b) e)).map (fun e => (e.1, collapseVal e.2)) =
      ((pre.filter (fun e => ! isMultiEntry (usedKeys b) e)).map
        (fun e => (e.1, collapseVal e.2))) ++
        ((post.filter (fun e => ! isMultiEntry (usedKeys b) e)).map
          (fun e => (e.1, collapseVal e.2))) := by
    rw [List.filter_append, List.map_append]
  simp only [expandContextsForBlock]
  rw [hmulti, hfix, hfix2]
  split
  · exact List.Forall₂.cons
      ⟨(pre.filter (fun e => ! isMultiEntry (usedKeys b) e)).map
          (fun e => (e.1, collapseVal e.2)),
        (post.filter (fun e => ! isMultiEntry (usedKeys b) e)).map
          (fun e => (e.1, collapseVal e.2)), rfl, rfl⟩
      List.Forall₂.nil
  · apply forall₂_map_same
    intro combo _
    exact ⟨(pre.filter (fun e => ! isMultiEntry (usedKeys b) e)).map
        (fun e => (e.1, collapseVal e.2)),
      ((post.filter (fun e => ! isMultiEntry (usedKeys b) e)).map
        (fun e => (e.1, collapseVal e.2))) ++
        List.map (fun kv => (kv.1, CtxVal.s kv.2))
          ((List.map (fun x => x.1)
            (List.filter (isMultiEntry (usedKeys b)) (pre ++ post))).zip combo),
      by simp, by simp⟩

theorem processFile_insert (k : String) (v : CtxVal) (fs : FS) (base : Path)
    (b : Block) (pre post : Context) (hb : ¬ MentionsKey k b) :
    processFile fs base b (pre ++ (k, v) :: post) = processFile fs base b (pre ++ post) := by
  rw [processFile, processFile]
  rw [isConditionMet_insert k v pre post b hb]
  rw [renderString_insert k v pre post (blockNameStr b)
    (fun hmem => hb (MentionsKey.name b hmem))]
  by_cases hc2 : (! isConditionMet b (pre ++ post)) = true
  · rw [if_pos hc2, if_pos hc2]
  · rw [if_neg hc2, if_neg hc2]
    dsimp only
    congr 1
    cases hct : b.content with
    | none => rfl
    | some cv =>
      cases cv with
      | vstr s =>
        exact renderString_insert k v pre post s
          (fun hmem => hb (MentionsKey.content b s hct hmem))
      | vbool bv => rfl
      | vint n => rfl
      | vlist xs => rfl
      | vdict bb => rfl

theorem process_insert (k : String) (vs : List String) (hlen : vs.length ≠ 1) :
    ∀ fuel : Nat,
      (∀ fs base b c1 c2, ¬ MentionsKey k b → InsCtx k (.l vs) c1 c2 →
        processDirectory fuel fs base b c1 = processDirectory fuel fs base b c2) ∧
      (∀ fs base b ctxs1 ctxs2, ¬ MentionsKey k b →
        List.Forall₂ (InsCtx k (.l vs)) ctxs1 ctxs2 →
        processDirCtxs fuel fs base b ctxs1 = processDirCtxs fuel fs base b ctxs2) ∧
      (∀ fs base b c1 c2, ¬ MentionsKey k b → InsCtx k (.l vs) c1 c2 →
        processDirOne fuel fs base b c1 = processDirOne fuel fs base b c2) ∧
      (∀ fs base cs c1 c2, (∀ cb, Val.vdict cb ∈ cs → ¬ MentionsKey k cb) →
        InsCtx k (.l vs) c1 c2 →
        processChildren fuel fs base cs c1 = processChildren fuel fs base cs c2) ∧
      (∀ fs base c c1 c2, (∀ cb, c = Val.vdict cb → ¬ MentionsKey k cb) →
        InsCtx k (.l vs) c1 c2 →
        processChild fuel fs base c c1 = processChild fuel fs base c c2) := by
  intro fuel
  induction fuel with
  | zero =>
    exact ⟨fun _ _ _ _ _ _ _ => rfl, fun _ _ _ _ _ _ _ => rfl,
           fun _ _ _ _ _ _ _ => rfl, fun _ _ _ _ _ _ _ => rfl,
           fun _ _ _ _ _ _ _ => rfl⟩
  | succ fuel ih =>
    obtain ⟨ihD, ihC, ihO, ihK, ihX⟩ := ih
    have hD : ∀ fs base b c1 c2, ¬ MentionsKey k b → InsCtx k (.l vs) c1 c2 →
        processDirectory (fuel + 1) fs base b c1 =
          processDirectory (fuel + 1) fs base b c2 := by
      intro fs base b c1 c2 hb hins
      obtain ⟨pre, post, rfl, rfl⟩ := hins
      rw [processDirectory, processDirectory]
      exact ihC fs base b _ _ hb
        (expand_insert b k vs (notMentions_contains_false b k hb) hlen pre post)
    have hC : ∀ fs base b ctxs1 ctxs2, ¬ MentionsKey k b →
        List.Forall₂ (InsCtx k (.l vs)) ctxs1 ctxs2 →
        processDirCtxs (fuel + 1) fs base b ctxs1 =
          processDirCtxs (fuel + 1) fs base b ctxs2 := by
      intro fs base b ctxs1 ctxs2 hb hrel
      cases hrel with
      | nil => rfl
      | cons hhead htail =>
        rename_i c1 c2 rest1 rest2
        rw [processDirCtxs, processDirCtxs]
        rw [ihO fs base b c1 c2 hb hhead]
        exact ihC _ base b rest1 rest2 hb htail
    have hO : ∀ fs base b c1 c2, ¬ MentionsKey k b → InsCtx k (.l vs) c1 c2 →
        processDirOne (fuel + 1) fs base b c1 =
          processDirOne (fuel + 1) fs base b c2 := by
      intro fs base b c1 c2 hb hins
      obtain ⟨pre, post, rfl, rfl⟩ := hins
      rw [processDirOne, processDirOne]
      rw [isConditionMet_insert k _ pre post b hb]
      rw [renderString_insert k _ pre post (blockNameStr b)
        (fun hmem => hb (MentionsKey.name b hmem))]
      by_cases hc2 : (! isConditionMet b (pre ++ post)) = true
      · rw [if_pos hc2, if_pos hc2]
      · rw [if_neg hc2, if_neg hc2]
        dsimp only
        cases hct : b.content with
        | none => rfl
        | some cv =>
          cases cv with
          | vstr s => rfl
          | vbool bv => rfl
          | vint n => rfl
          | vdict bb => rfl
          | vlist cs =>
            exact ihK _ _ cs _ _
              (fun cb hm hmk => hb (MentionsKey.child b cs cb hct hm hmk))
              ⟨pre, post, rfl, rfl⟩
    have hX : ∀ fs base c c1 c2, (∀ cb, c = Val.vdict cb → ¬ MentionsKey k cb) →
        InsCtx k (.l vs) c1 c2 →
        processChild (fuel + 1) fs base c c1 = processChild (fuel + 1) fs base c c2 := by
      intro fs base c c1 c2 hc hins
      obtain ⟨pre, post, rfl, rfl⟩ := hins
      cases c with
      | vstr s => rfl
      | vbool bv => rfl
      | vint n => rfl
      | vlist xs => rfl
      | vdict child =>
        have hchild : ¬ MentionsKey k child := hc child rfl
        rw [processChild, processChild]
        rw [isConditionMet_insert k _ pre post child hchild]
        split
        · rfl
        · split
          · exact ihD fs base child _ _ hchild ⟨pre, post, rfl, rfl⟩
          · split
            · exact processFile_insert k _ fs base child pre post hchild
            · split
              · exact processFile_insert k _ fs base child pre post hchild
              · rfl
    have hK : ∀ fs base cs c1 c2, (∀ cb, Val.vdict cb ∈ cs → ¬ MentionsKey k cb) →
        InsCtx k (.l vs) c1 c2 →
        processChildren (fuel + 1) fs base cs c1 =
          processChildren (fuel + 1) fs base cs c2 := by
      intro fs base cs c1 c2 hcs hins
      cases cs with
      | nil => rfl
      | cons c rest =>
        rw [processChildren, processChildren]
        rw [ihX fs base c c1 c2
          (fun cb hcb => hcs cb (hcb ▸ List.mem_cons_self _ _)) hins]
        exact ihK _ base rest c1 c2
          (fun cb hm => hcs cb (List.mem_cons_of_mem _ hm)) hins
    exact ⟨hD, hC, hO, hK, hX⟩

/-- C5: a placeholder key bound to more than one value but not referenced
anywhere in a block's subtree does not multiply that subtree's
materialization: removing the binding entirely yields the same
filesystem state, and the number of expanded contexts is unchanged. -/
theorem c5_expansion_minimality (fuel : Nat) (fs : FS) (base : Path) (b : Block)
    (k : String) (vs : List String) (pre post : Context)
    (href : ¬ MentionsKey k b) (hn : 1 < vs.length) :
    processDirectory fuel fs base b (pre ++ (k, CtxVal.l vs) :: post) =
      processDirectory fuel fs base b (pre ++ post) ∧
    (expandContextsForBlock b (pre ++ (k, CtxVal.l vs) :: post)).length =
      (expandContextsForBlock b (pre ++ post)).length := by
  constructor
  · exact (process_insert k vs (by omega) fuel).1 fs base b _ _ href
      ⟨pre, post, rfl, rfl⟩
  · exact (expand_insert b k vs (notMentions_contains_false b k href)
      (by omega) pre post).length_eq

/-- C5 witness: the theorem at the childless directory `app` with
`adapter = [http, kafka]` inserted into the context. -/
theorem c5_witness :
    (processDirectory 5 FS.empty ["out"] plainDirBlock
        ([("x", CtxVal.s "1")] ++ ("adapter", CtxVal.l ["http", "kafka"]) :: []) =
      processDirectory 5 FS.empty ["out"] plainDirBlock ([("x", CtxVal.s "1")] ++ [])) ∧
    (expandContextsForBlock plainDirBlock
        ([("x", CtxVal.s "1")] ++ ("adapter", CtxVal.l ["http", "kafka"]) :: [])).length =
      (expandContextsForBlock plainDirBlock ([("x", CtxVal.s "1")] ++ [])).length :=
  c5_expansion_minimality 5 FS.empty ["out"] plainDirBlock "adapter" ["http", "kafka"]
    [("x", CtxVal.s "1")] []
    (by
      intro h
      cases h with
      | name _ hm => exact absurd hm (by decide)
      | cond _ s hc _ => exact Option.noConfusion hc
      | condTok _ s tok lit isEq hc _ _ => exact Option.noConfusion hc
      | content _ s hct _ => exact Option.noConfusion hct
      | child _ cs cb hct _ _ => exact Option.noConfusion hct)
    (by decide)

/-- C3 witness: the theorem at the contexts binding `adapter` to `http`
and to `kafka`. -/
theorem c3_witness :
    (isConditionMet condEqBlock [("adapter", .s "http")] = ("http" == "http") ∧
     isConditionMet condNeBlock [("adapter", .s "http")] = ("http" != "http") ∧
     processChild 1 FS.empty ["out"] (.vdict condEqBlock) [("adapter", .s "http")] =
       (if "http" == "http" then
         processFile FS.empty ["out"] condEqBlock [("adapter", .s "http")]
        else FS.empty)) ∧
    (isConditionMet condEqBlock [("adapter", .s "kafka")] = ("kafka" == "http") ∧
     isConditionMet condNeBlock [("adapter", .s "kafka")] = ("kafka" != "http") ∧
     processChild 1 FS.empty ["out"] (.vdict condEqBlock) [("adapter", .s "kafka")] =
       (if "kafka" == "http" then
         processFile FS.empty ["out"] condEqBlock [("adapter", .s "kafka")]
        else FS.empty)) :=
  ⟨c3_condition_precision condEqBlock condNeBlock [("adapter", .s "http")] "http"
      0 FS.empty ["out"] rfl rfl rfl rfl,
   c3_condition_precision condEqBlock condNeBlock [("adapter", .s "kafka")] "kafka"
      0 FS.empty ["out"] rfl rfl rfl rfl⟩

/-- C4: for the single value `happiness` bound under the keys `SERVICE`,
`Service` and `service` respectively, rendering `${SERVICE}` yields
`HAPPINESS` (whole value uppercased), `${Service}` yields `Happiness`
(only the first character uppercased), and `${service}` yields
`happiness` (value unchanged): the style comes from the token as
written, not from the value. -/
theorem c4_case_style_law :
    renderString "${SERVICE}" [("SERVICE", .s "happiness")] = "HAPPINESS" ∧
    renderString "${Service}" [("Service", .s "happiness")] = "Happiness" ∧
    renderString "${service}" [("service", .s "happiness")] = "happiness" := by
  refine ⟨?_, ?_, ?_⟩ <;> decide

/-- C6: scanning a directory containing only the chain `a/b/c/` (each
intermediate directory with exactly one directory child and no file
children, `c` empty) yields exactly one Directory block named `a/b/c`
with no content key, and materializing that block with an empty context
recreates the three-level path, intermediate segments included. -/
theorem c6_scan_generate_roundtrip :
    scanDir 10 chainTree = [chainBlock] ∧
    processDirectory 10 FS.empty [] chainBlock [] =
      ⟨[["a"], ["a", "b"], ["a", "b", "c"]], []⟩ :=
  ⟨rfl, by decide⟩

/-- C8 counterexample: a symbolic link to a directory is an entry that is
not a regular file and not a directory, yet the scanner emits a block for
it (`os.path.isdir` follows symlinks), refuting the claim at the concrete
entry `("s", linkDir [])`. -/
theorem c8_counterexample :
    (scanEntry 10 ("s", FsNode.linkDir [])).isSome = true := by decide

/-- C8 as amended: an entry for which both `os.path.isdir` and
`os.path.isfile` are false (device nodes, broken links, `other`) yields
no block and is not descended into, while a symlink to a directory or to
a regular file is followed: the scanner treats it exactly as that
directory or file. -/
theorem c8_skip_non_dir_non_file (fuel : Nat) (n : String)
    (es : List (String × FsNode)) (d : Option String) :
    scanEntry fuel (n, .other) = none ∧
    scanEntry fuel (n, .linkDir es) = scanEntry fuel (n, .dir es) ∧
    scanEntry fuel (n, .linkFile d) = scanEntry fuel (n, .file d) := by
  refine ⟨?_, ?_, ?_⟩ <;> cases fuel <;> rfl

/-- C7 counterexample: a child with unknown type `widget`, a name and the
string content `hello` is materialized as a file whose content is
`hello`, not as an empty file, refuting the claim at this block. -/
theorem c7_counterexample :
    processDirectory 20 FS.empty ["out"] weirdDir [] =
      ⟨[["out"], ["out", "d"]], [(["out", "d", "notes.txt"], "hello")]⟩ := by
  decide

/-- C7 as amended: a child whose `type` is neither `"file"` nor
`"directory"` but which carries a `name` key is processed by the file
routine: a file with the rendered name is created, whose content is the
rendered content string when the block carries one, and empty only when
`content` is absent or not a string. -/
theorem c7_unknown_type_with_name_as_file (fuel : Nat) (fs : FS) (base : Path)
    (ctx : Context) (child : Block) (c : String)
    (ht : ∀ t, child.typeStr = some t → t ≠ "directory" ∧ t ≠ "file")
    (hn : child.name.isSome = true) :
    processChild (fuel + 1) fs base (.vdict child) ctx =
      (if isConditionMet child ctx then processFile fs base child ctx else fs) ∧
    (child.content = some (.vstr c) → isConditionMet child ctx = true →
      processFile fs base child ctx =
        (fs.ensureParent (base ++ splitPath (renderString (blockNameStr child) ctx))).write
          (base ++ splitPath (renderString (blockNameStr child) ctx))
          (renderString c ctx)) := by
  constructor
  · have hd : (child.typeStr == some "directory") = false := by
      cases h : child.typeStr with
      | none => rfl
      | some t =>
        have := (ht t h).1
        simp [this]
    have hf : (child.typeStr == some "file") = false := by
      cases h : child.typeStr with
      | none => rfl
      | some t =>
        have := (ht t h).2
        simp [this]
    rw [processChild]
    rw [hd, hf, hn]
    cases hcond : isConditionMet child ctx <;> simp
  · intro hcontent hcond
    rw [processFile, hcond]
    rw [hcontent]
    simp

/-- C7 witness: the amended theorem at `weirdChild`. -/
theorem c7_witness :
    (processChild 1 FS.empty ["out"] (.vdict weirdChild) [] =
      (if isConditionMet weirdChild [] then processFile FS.empty ["out"] weirdChild []
       else FS.empty)) ∧
    (weirdChild.content = some (.vstr "hello") → isConditionMet weirdChild [] = true →
      processFile FS.empty ["out"] weirdChild [] =
        (FS.empty.ensureParent
            (["out"] ++ splitPath (renderString (blockNameStr weirdChild) []))).write
          (["out"] ++ splitPath (renderString (blockNameStr weirdChild) []))
          (renderString "hello" [])) :=
  c7_unknown_type_with_name_as_file 0 FS.empty ["out"] [] weirdChild "hello"
    (fun t h => by
      rw [show weirdChild.typeStr = some "widget" from rfl] at h
      injection h with h
      subst h
      exact ⟨by decide, by decide⟩)
    rfl

/-- C2 counterexample: a root File block whose name references `adapter`
bound to the two values `http, kafka` is materialized exactly once (with
the first value), not once per value, refuting the claim at this
template. -/
theorem c2_counterexample :
    generateFromTemplate 20 FS.empty ["out"] [.vdict rootFileBlock] adapterCtx =
      ⟨[["out"]], [(["out", "f-http"], "")]⟩ := by decide

/-- C2 as amended: a root Directory block is handed to
`process_directory`, which expands the full initial context; a root File
block is handed directly to `process_file` with the unexpanded initial
context, so it is materialized exactly once and a multi-valued
placeholder it references renders as that key's first bound value. -/
theorem c2_root_dispatch (fuel : Nat) (fs : FS) (out : Path) (rest : List Val)
    (ctx : Context) (bf bd : Block)
    (hf : bf.typeStr = some "file") (hd : bd.typeStr = some "directory") :
    generateRoot fuel fs out (.vdict bf :: rest) ctx =
      generateRoot fuel (processFile fs out bf ctx) out rest ctx ∧
    generateRoot fuel fs out (.vdict bd :: rest) ctx =
      generateRoot fuel (processDirectory fuel fs out bd ctx) out rest ctx := by
  constructor
  · rw [generateRoot, hf]
    simp
  · rw [generateRoot, hd]
    simp

/-- C2 witness: the amended theorem at `rootFileBlock` and
`plainDirBlock`. -/
theorem c2_witness :
    (generateRoot 3 FS.empty ["out"] (.vdict rootFileBlock :: []) adapterCtx =
      generateRoot 3 (processFile FS.empty ["out"] rootFileBlock adapterCtx)
        ["out"] [] adapterCtx) ∧
    (generateRoot 3 FS.empty ["out"] (.vdict plainDirBlock :: []) adapterCtx =
      generateRoot 3 (processDirectory 3 FS.empty ["out"] plainDirBlock adapterCtx)
        ["out"] [] adapterCtx) :=
  c2_root_dispatch 3 FS.empty ["out"] [] adapterCtx rootFileBlock plainDirBlock rfl rfl

/-- C10: a `cond` that is present but neither a boolean nor a string
evaluates to true and the block is materialized, the opposite of the
fail-closed handling of unparseable condition strings, which evaluate to
false. -/
theorem c10_nonscalar_cond_true (b b' : Block) (ctx : Context) (v : Val) (s : String)
    (fuel : Nat) (fs : FS) (base : Path)
    (hc : b.cond = some v)
    (hnb : ∀ bv : Bool, v ≠ .vbool bv) (hns : ∀ t : String, v ≠ .vstr t)
    (htype : b.typeStr = some "file")
    (hc' : b'.cond = some (.vstr s)) (hp : parseCond s = none) :
    isConditionMet b ctx = true ∧
    processChild (fuel + 1) fs base (.vdict b) ctx = processFile fs base b ctx ∧
    isConditionMet b' ctx = false := by
  have h1 : isConditionMet b ctx = true := by
    rw [isConditionMet, hc]
    match v, hnb, hns with
    | .vint n, _, _ => rfl
    | .vlist xs, _, _ => rfl
    | .vdict bb, _, _ => rfl
    | .vbool bv, hnb, _ => exact absurd rfl (hnb bv)
    | .vstr t, _, hns => exact absurd rfl (hns t)
  refine ⟨h1, ?_, ?_⟩
  · rw [processChild, h1, htype]
    simp
  · simp only [isConditionMet, hc', hp]

/-- C10 witness: the theorem at `intCondBlock` and `badCondBlock`. -/
theorem c10_witness :
    isConditionMet intCondBlock [] = true ∧
    processChild 1 FS.empty ["out"] (.vdict intCondBlock) [] =
      processFile FS.empty ["out"] intCondBlock [] ∧
    isConditionMet badCondBlock [] = false :=
  c10_nonscalar_cond_true intCondBlock badCondBlock [] (.vint 7) "garbage" 0 FS.empty
    ["out"] rfl (fun bv h => by cases h) (fun t h => by cases h) rfl rfl rfl

end Skelly
